import Mathlib

/-!
Verification of the regex front end in `src/regex.py`: a tokenizer
(`Tokenizer.get_next_token` / `Tokenizer.tokenize`), a recursive-descent
parser (`Parser.regex` / `term` / `factor` / `atom`), and a serializer
(`compile`).  Python strings are modelled as `String` / `List Char`
(ASCII fragment: Python's `str.isalnum` is modelled by `Char.isAlphanum`),
Python exceptions as explicit error sums.  A Python `AttributeError`
caused by reading `.type` on `None` is modelled by a dedicated error
constructor, distinct from the `ValueError`s the code raises on purpose.
-/

namespace Regex

/-- The `type` field of the Python `Token` class. -/
inductive TokType where
  | CHAR | ESCAPED_CHAR | STAR | ALT | DOT | START | END | CLASS | QUANT | LPAREN | RPAREN
deriving DecidableEq, Repr

/-- The Python `Token` class: a `type` tag and a `value` string. -/
structure Token where
  type : TokType
  value : String
deriving DecidableEq, Repr

/-- The distinct `ValueError` raise sites of `Tokenizer.get_next_token`. -/
inductive LexError where
  /-- `raise ValueError("Backslash at end of regex")` -/
  | unterminatedEscape
  /-- `raise ValueError("Unclosed character class")` -/
  | unterminatedClass
  /-- `raise ValueError("Unclosed quantifier")` -/
  | unterminatedQuantifier
  /-- `raise ValueError(f"Unknown character: ...")` -/
  | unknownCharacter (c : Char)
deriving DecidableEq, Repr

/-- The first branch of `get_next_token`:
`current_char.isalnum() or current_char in {'@', '-', '_', '%', '+', '.'}`. -/
def charSet (c : Char) : Bool :=
  c.isAlphanum || c == '@' || c == '-' || c == '_' || c == '%' || c == '+' || c == '.'

/-- `Tokenizer.tokenize` over the remaining characters of the input.  The
character-class branch scans up to the first `]` (body excludes the
brackets); the quantifier branch scans up to the first `}` (body includes
the braces).  The `DOT` branch is kept exactly where the source has it,
after the `charSet` branch that already matches `'.'`. -/
def tokChars : List Char → Except LexError (List Token)
  | [] => .ok []
  | c :: rest =>
    if charSet c then
      (tokChars rest).map (fun ts => ⟨.CHAR, String.mk [c]⟩ :: ts)
    else if c == '\\' then
      match rest with
      | [] => .error .unterminatedEscape
      | d :: rest2 => (tokChars rest2).map (fun ts => ⟨.ESCAPED_CHAR, String.mk [d]⟩ :: ts)
    else if c == '*' then
      (tokChars rest).map (fun ts => ⟨.STAR, "*"⟩ :: ts)
    else if c == '|' then
      (tokChars rest).map (fun ts => ⟨.ALT, "|"⟩ :: ts)
    else if c == '.' then
      -- dead branch: `charSet '.' = true`, see `tokChars_no_DOT`
      (tokChars rest).map (fun ts => ⟨.DOT, "."⟩ :: ts)
    else if c == '^' then
      (tokChars rest).map (fun ts => ⟨.START, "^"⟩ :: ts)
    else if c == '$' then
      (tokChars rest).map (fun ts => ⟨.END, "$"⟩ :: ts)
    else if c == '[' then
      if (rest.dropWhile (fun d => d != ']')).isEmpty then .error .unterminatedClass
      else
        (tokChars (rest.dropWhile (fun d => d != ']')).tail).map
          (fun ts => ⟨.CLASS, String.mk (rest.takeWhile (fun d => d != ']'))⟩ :: ts)
    else if c == '{' then
      if (rest.dropWhile (fun d => d != '}')).isEmpty then .error .unterminatedQuantifier
      else
        (tokChars (rest.dropWhile (fun d => d != '}')).tail).map
          (fun ts => ⟨.QUANT, String.mk ('{' :: rest.takeWhile (fun d => d != '}') ++ ['}'])⟩ :: ts)
    else if c == '(' then
      (tokChars rest).map (fun ts => ⟨.LPAREN, "("⟩ :: ts)
    else if c == ')' then
      (tokChars rest).map (fun ts => ⟨.RPAREN, ")"⟩ :: ts)
    else
      .error (.unknownCharacter c)
termination_by l => l.length
decreasing_by
  all_goals simp_wf
  all_goals try omega
  all_goals
    first
    | (have hs : (List.dropWhile (fun d => d != ']') rest2).length ≤ rest2.length :=
         List.IsSuffix.length_le (List.dropWhile_suffix _)
       omega)
    | (have hs : (List.dropWhile (fun d => d != '}') rest2).length ≤ rest2.length :=
         List.IsSuffix.length_le (List.dropWhile_suffix _)
       omega)

/-- `Tokenizer(regex).tokenize()`. -/
def tokenize (s : String) : Except LexError (List Token) :=
  tokChars s.data

theorem except_map_map {ε α β γ : Type} (f : α → β) (g : β → γ) (x : Except ε α) :
    (x.map f).map g = x.map (fun a => g (f a)) := by
  cases x <;> rfl

theorem takeWhile_dropWhile_append {α : Type} (p : α → Bool) (l₁ : List α) (x : α) (l₂ : List α)
    (h1 : ∀ a ∈ l₁, p a = true) (h2 : p x = false) :
    (l₁ ++ x :: l₂).takeWhile p = l₁ ∧ (l₁ ++ x :: l₂).dropWhile p = x :: l₂ := by
  induction l₁ with
  | nil => simp [List.takeWhile_cons, List.dropWhile_cons, h2]
  | cons a l ih =>
    have ha : p a = true := h1 a (by simp)
    have := ih (fun b hb => h1 b (by simp [hb]))
    simp [List.takeWhile_cons, List.dropWhile_cons, ha, this.1, this.2]

theorem dropWhile_head_false {α : Type} (p : α → Bool) (l : List α) (x : α) (xs : List α)
    (h : l.dropWhile p = x :: xs) : p x = false := by
  induction l with
  | nil => simp at h
  | cons a l ih =>
    rw [List.dropWhile_cons] at h
    by_cases ha : p a = true
    · exact ih (by simpa [ha] using h)
    · simp [ha] at h
      simp [← h.1]
      simpa using ha

/-! ### One-step unfolding lemmas for `tokChars` -/

theorem tokChars_nil : tokChars [] = .ok [] := by
  rw [tokChars.eq_def]

theorem tokChars_charSet (c : Char) (r : List Char) (h : charSet c = true) :
    tokChars (c :: r) = (tokChars r).map (fun ts => ⟨.CHAR, String.mk [c]⟩ :: ts) := by
  rw [tokChars.eq_def]
  simp [h]

theorem tokChars_escape (c : Char) (r : List Char) :
    tokChars ('\\' :: c :: r) = (tokChars r).map (fun ts => ⟨.ESCAPED_CHAR, String.mk [c]⟩ :: ts) := by
  rw [tokChars.eq_def]
  simp +decide

theorem tokChars_star (r : List Char) :
    tokChars ('*' :: r) = (tokChars r).map (fun ts => ⟨.STAR, "*"⟩ :: ts) := by
  rw [tokChars.eq_def]
  simp +decide

theorem tokChars_alt (r : List Char) :
    tokChars ('|' :: r) = (tokChars r).map (fun ts => ⟨.ALT, "|"⟩ :: ts) := by
  rw [tokChars.eq_def]
  simp +decide

theorem tokChars_start (r : List Char) :
    tokChars ('^' :: r) = (tokChars r).map (fun ts => ⟨.START, "^"⟩ :: ts) := by
  rw [tokChars.eq_def]
  simp +decide

theorem tokChars_end (r : List Char) :
    tokChars ('$' :: r) = (tokChars r).map (fun ts => ⟨.END, "$"⟩ :: ts) := by
  rw [tokChars.eq_def]
  simp +decide

theorem tokChars_lparen (r : List Char) :
    tokChars ('(' :: r) = (tokChars r).map (fun ts => ⟨.LPAREN, "("⟩ :: ts) := by
  rw [tokChars.eq_def]
  simp +decide

theorem tokChars_rparen (r : List Char) :
    tokChars (')' :: r) = (tokChars r).map (fun ts => ⟨.RPAREN, ")"⟩ :: ts) := by
  rw [tokChars.eq_def]
  simp +decide

theorem tokChars_class (body : List Char) (r : List Char)
    (h : ∀ a ∈ body, (a != ']') = true) :
    tokChars ('[' :: (body ++ ']' :: r)) =
      (tokChars r).map (fun ts => ⟨.CLASS, String.mk body⟩ :: ts) := by
  have hsplit := takeWhile_dropWhile_append (fun d => d != ']') body ']' r h (by decide)
  rw [tokChars.eq_def]
  simp +decide [hsplit.1, hsplit.2]

theorem tokChars_quant (inner : List Char) (r : List Char)
    (h : ∀ a ∈ inner, (a != '}') = true) :
    tokChars ('{' :: (inner ++ '}' :: r)) =
      (tokChars r).map (fun ts => ⟨.QUANT, String.mk ('{' :: inner ++ ['}'])⟩ :: ts) := by
  have hsplit := takeWhile_dropWhile_append (fun d => d != '}') inner '}' r h (by decide)
  rw [tokChars.eq_def]
  simp +decide [hsplit.1, hsplit.2]

/-! ### Lexer output invariants -/

/-- Shape of each `Token` as the tokenizer produces it: `CHAR` holds a single
character from the `charSet` branch, `ESCAPED_CHAR` a single character,
`CLASS` a body free of `]` (brackets excluded), `QUANT` a brace-delimited
body whose interior is free of `}` (braces included), operators hold their
own lexeme, and `DOT` is never produced. -/
def tokOK (t : Token) : Bool :=
  match t.type, t.value.data with
  | .CHAR, [c] => charSet c
  | .ESCAPED_CHAR, [_] => true
  | .CLASS, l => !(l.contains ']')
  | .QUANT, c :: l => c == '{' && (l.takeWhile (fun d => d != '}') ++ ['}'] == l)
  | .STAR, l => l == ['*']
  | .ALT, l => l == ['|']
  | .START, l => l == ['^']
  | .END, l => l == ['$']
  | .LPAREN, l => l == ['(']
  | .RPAREN, l => l == [')']
  | _, _ => false

/-- The exact input characters a token accounts for: the `CLASS` body is
wrapped back in its brackets, an escaped character regains its backslash,
every other token (including `QUANT`, whose value already includes the
braces) is its own `value`. -/
def lexeme (t : Token) : List Char :=
  match t.type with
  | .CLASS => '[' :: t.value.data ++ [']']
  | .ESCAPED_CHAR => '\\' :: t.value.data
  | _ => t.value.data

/-- Concatenation of the lexemes of a token list. -/
def lexcat : List Token → List Char
  | [] => []
  | t :: ts => lexeme t ++ lexcat ts

/-- Lexer invariant: a successful `tokChars` run yields only well-shaped
tokens, and their lexemes concatenate back to the exact input. -/
theorem tokChars_inv (l : List Char) :
    ∀ ts, tokChars l = .ok ts → (∀ t ∈ ts, tokOK t = true) ∧ l = lexcat ts := by
  induction l using tokChars.induct with
  | case1 =>
    intro ts h
    rw [tokChars_nil] at h
    cases h
    simp [lexcat]
  | case2 d rest hcs ih =>
    intro ts h
    rw [tokChars_charSet d rest hcs] at h
    cases hr : tokChars rest with
    | error e => rw [hr] at h; simp [Except.map] at h
    | ok ts' =>
      rw [hr] at h
      simp only [Except.map, Except.ok.injEq] at h
      obtain ⟨hOK, hLex⟩ := ih ts' hr
      subst h
      refine ⟨?_, ?_⟩
      · intro t ht
        rcases List.mem_cons.mp ht with rfl | ht
        · simpa [tokOK] using hcs
        · exact hOK t ht
      · simp [lexcat, lexeme, ← hLex]
  | case3 d hncs heq =>
    intro ts h
    rw [tokChars.eq_def] at h
    simp [hncs, heq] at h
  | case4 d hncs heq c rest ih =>
    intro ts h
    have hd : d = '\\' := eq_of_beq heq
    subst hd
    rw [tokChars_escape c rest] at h
    cases hr : tokChars rest with
    | error e => rw [hr] at h; simp [Except.map] at h
    | ok ts' =>
      rw [hr] at h
      simp only [Except.map, Except.ok.injEq] at h
      obtain ⟨hOK, hLex⟩ := ih ts' hr
      subst h
      refine ⟨?_, ?_⟩
      · intro t ht
        rcases List.mem_cons.mp ht with rfl | ht
        · simp [tokOK]
        · exact hOK t ht
      · simp [lexcat, lexeme, ← hLex]
  | case5 d rest hncs h1 heq ih =>
    intro ts h
    have hd : d = '*' := eq_of_beq heq
    subst hd
    rw [tokChars_star rest] at h
    cases hr : tokChars rest with
    | error e => rw [hr] at h; simp [Except.map] at h
    | ok ts' =>
      rw [hr] at h
      simp only [Except.map, Except.ok.injEq] at h
      obtain ⟨hOK, hLex⟩ := ih ts' hr
      subst h
      refine ⟨?_, ?_⟩
      · intro t ht
        rcases List.mem_cons.mp ht with rfl | ht
        · simp +decide [tokOK]
        · exact hOK t ht
      · simp [lexcat, lexeme, ← hLex]
  | case6 d rest hncs h1 h2 heq ih =>
    intro ts h
    have hd : d = '|' := eq_of_beq heq
    subst hd
    rw [tokChars_alt rest] at h
    cases hr : tokChars rest with
    | error e => rw [hr] at h; simp [Except.map] at h
    | ok ts' =>
      rw [hr] at h
      simp only [Except.map, Except.ok.injEq] at h
      obtain ⟨hOK, hLex⟩ := ih ts' hr
      subst h
      refine ⟨?_, ?_⟩
      · intro t ht
        rcases List.mem_cons.mp ht with rfl | ht
        · simp +decide [tokOK]
        · exact hOK t ht
      · simp [lexcat, lexeme, ← hLex]
  | case7 d rest hncs h1 h2 h3 heq ih =>
    -- dead `DOT` branch: `charSet '.'` already holds
    intro ts h
    have hd : d = '.' := eq_of_beq heq
    subst hd
    exact absurd (by decide) hncs
  | case8 d rest hncs h1 h2 h3 h4 heq ih =>
    intro ts h
    have hd : d = '^' := eq_of_beq heq
    subst hd
    rw [tokChars_start rest] at h
    cases hr : tokChars rest with
    | error e => rw [hr] at h; simp [Except.map] at h
    | ok ts' =>
      rw [hr] at h
      simp only [Except.map, Except.ok.injEq] at h
      obtain ⟨hOK, hLex⟩ := ih ts' hr
      subst h
      refine ⟨?_, ?_⟩
      · intro t ht
        rcases List.mem_cons.mp ht with rfl | ht
        · simp +decide [tokOK]
        · exact hOK t ht
      · simp [lexcat, lexeme, ← hLex]
  | case9 d rest hncs h1 h2 h3 h4 h5 heq ih =>
    intro ts h
    have hd : d = '$' := eq_of_beq heq
    subst hd
    rw [tokChars_end rest] at h
    cases hr : tokChars rest with
    | error e => rw [hr] at h; simp [Except.map] at h
    | ok ts' =>
      rw [hr] at h
      simp only [Except.map, Except.ok.injEq] at h
      obtain ⟨hOK, hLex⟩ := ih ts' hr
      subst h
      refine ⟨?_, ?_⟩
      · intro t ht
        rcases List.mem_cons.mp ht with rfl | ht
        · simp +decide [tokOK]
        · exact hOK t ht
      · simp [lexcat, lexeme, ← hLex]
  | case10 d rest hncs h1 h2 h3 h4 h5 h6 heq hempty =>
    intro ts h
    rw [tokChars.eq_def] at h
    simp [hncs, h1, h2, h3, h4, h5, h6, heq, hempty] at h
  | case11 d rest hncs h1 h2 h3 h4 h5 h6 heq hne ih =>
    intro ts h
    have hd : d = '[' := eq_of_beq heq
    subst hd
    obtain ⟨x, xs, hxs⟩ : ∃ x xs, rest.dropWhile (fun d => d != ']') = x :: xs := by
      cases hdw : rest.dropWhile (fun d => d != ']') with
      | nil => rw [hdw] at hne; simp at hne
      | cons x xs => exact ⟨x, xs, rfl⟩
    have hx : x = ']' := by
      have := dropWhile_head_false _ _ _ _ hxs
      simpa using this
    subst hx
    have hmem : ∀ a ∈ rest.takeWhile (fun d => d != ']'), (a != ']') = true := by
      intro a ha
      have := List.mem_takeWhile_imp ha
      simpa using this
    have hta : rest.takeWhile (fun d => d != ']') ++ rest.dropWhile (fun d => d != ']') = rest :=
      List.takeWhile_append_dropWhile _ _
    have hsplit : rest = rest.takeWhile (fun d => d != ']') ++ ']' :: xs := by
      rw [hxs] at hta
      exact hta.symm
    rw [hsplit] at h
    rw [tokChars_class (rest.takeWhile (fun d => d != ']')) xs hmem] at h
    rw [hxs] at ih
    simp only [List.tail_cons] at ih
    cases hr : tokChars xs with
    | error e => rw [hr] at h; simp [Except.map] at h
    | ok ts' =>
      rw [hr] at h
      simp only [Except.map, Except.ok.injEq] at h
      obtain ⟨hOK, hLex⟩ := ih ts' hr
      subst h
      refine ⟨?_, ?_⟩
      · intro t ht
        rcases List.mem_cons.mp ht with rfl | ht
        · have hnotin : ']' ∉ rest.takeWhile (fun d => d != ']') := fun hm => by
            simpa using hmem ']' hm
          simpa [tokOK] using hnotin
        · exact hOK t ht
      · simp only [lexcat, lexeme]
        rw [← hLex]
        conv_lhs => rw [hsplit]
        simp
  | case12 d rest hncs h1 h2 h3 h4 h5 h6 h7 heq hempty =>
    intro ts h
    rw [tokChars.eq_def] at h
    simp [hncs, h1, h2, h3, h4, h5, h6, h7, heq, hempty] at h
  | case13 d rest hncs h1 h2 h3 h4 h5 h6 h7 heq hne ih =>
    intro ts h
    have hd : d = '{' := eq_of_beq heq
    subst hd
    obtain ⟨x, xs, hxs⟩ : ∃ x xs, rest.dropWhile (fun d => d != '}') = x :: xs := by
      cases hdw : rest.dropWhile (fun d => d != '}') with
      | nil => rw [hdw] at hne; simp at hne
      | cons x xs => exact ⟨x, xs, rfl⟩
    have hx : x = '}' := by
      have := dropWhile_head_false _ _ _ _ hxs
      simpa using this
    subst hx
    have hmem : ∀ a ∈ rest.takeWhile (fun d => d != '}'), (a != '}') = true := by
      intro a ha
      have := List.mem_takeWhile_imp ha
      simpa using this
    have hta : rest.takeWhile (fun d => d != '}') ++ rest.dropWhile (fun d => d != '}') = rest :=
      List.takeWhile_append_dropWhile _ _
    have hsplit : rest = rest.takeWhile (fun d => d != '}') ++ '}' :: xs := by
      rw [hxs] at hta
      exact hta.symm
    rw [hsplit] at h
    rw [tokChars_quant (rest.takeWhile (fun d => d != '}')) xs hmem] at h
    rw [hxs] at ih
    simp only [List.tail_cons] at ih
    cases hr : tokChars xs with
    | error e => rw [hr] at h; simp [Except.map] at h
    | ok ts' =>
      rw [hr] at h
      simp only [Except.map, Except.ok.injEq] at h
      obtain ⟨hOK, hLex⟩ := ih ts' hr
      subst h
      refine ⟨?_, ?_⟩
      · intro t ht
        rcases List.mem_cons.mp ht with rfl | ht
        · have htw := (takeWhile_dropWhile_append (fun d => d != '}')
            (rest.takeWhile (fun d => d != '}')) '}' [] hmem (by decide)).1
          simp [tokOK, htw]
        · exact hOK t ht
      · simp only [lexcat, lexeme]
        rw [← hLex]
        conv_lhs => rw [hsplit]
        simp
  | case14 d rest hncs h1 h2 h3 h4 h5 h6 h7 h8 heq ih =>
    intro ts h
    have hd : d = '(' := eq_of_beq heq
    subst hd
    rw [tokChars_lparen rest] at h
    cases hr : tokChars rest with
    | error e => rw [hr] at h; simp [Except.map] at h
    | ok ts' =>
      rw [hr] at h
      simp only [Except.map, Except.ok.injEq] at h
      obtain ⟨hOK, hLex⟩ := ih ts' hr
      subst h
      refine ⟨?_, ?_⟩
      · intro t ht
        rcases List.mem_cons.mp ht with rfl | ht
        · simp +decide [tokOK]
        · exact hOK t ht
      · simp [lexcat, lexeme, ← hLex]
  | case15 d rest hncs h1 h2 h3 h4 h5 h6 h7 h8 h9 heq ih =>
    intro ts h
    have hd : d = ')' := eq_of_beq heq
    subst hd
    rw [tokChars_rparen rest] at h
    cases hr : tokChars rest with
    | error e => rw [hr] at h; simp [Except.map] at h
    | ok ts' =>
      rw [hr] at h
      simp only [Except.map, Except.ok.injEq] at h
      obtain ⟨hOK, hLex⟩ := ih ts' hr
      subst h
      refine ⟨?_, ?_⟩
      · intro t ht
        rcases List.mem_cons.mp ht with rfl | ht
        · simp +decide [tokOK]
        · exact hOK t ht
      · simp [lexcat, lexeme, ← hLex]
  | case16 d rest hncs h1 h2 h3 h4 h5 h6 h7 h8 h9 h10 =>
    intro ts h
    rw [tokChars.eq_def] at h
    simp [hncs, h1, h2, h3, h4, h5, h6, h7, h8, h9, h10] at h

/-! ### The syntax tree and the parser -/

/-- The abstract syntax tree.  `Parser.atom` returns leaf *tokens*
unchanged (`Node.tok`); the other constructors are the `Node(type, left,
right)` values the parser builds: `Node('STAR', atom)`,
`Node('CONCAT', l, r)`, `Node('ALT', l, r)`, `Node('QUANT', atom, quant)`
(whose `right` is the original `QUANT` token), and `Node('GROUP', node)`. -/
inductive Node where
  | tok (t : Token)
  | star (x : Node)
  | concat (l r : Node)
  | alt (l r : Node)
  | quant (x : Node) (q : Token)
  | group (x : Node)
deriving DecidableEq, Repr

/-- The failure modes of the Python parser. -/
inductive ParseError where
  /-- `raise ValueError("Unclosed parenthesis")` in `Parser.atom`. -/
  | unclosedGroup
  /-- `raise ValueError(f"Unexpected token: ...")` in `Parser.atom`. -/
  | unexpectedToken (t : Token)
  /-- Python `AttributeError`: `Parser.atom` evaluates
  `self.current_token.type` while `current_token` is `None` (end of
  input), which crashes instead of raising a `ValueError`. -/
  | noneTypeError
deriving DecidableEq, Repr

/-- The token kinds `Parser.atom` consumes directly:
`{'CHAR', 'CLASS', 'DOT', 'START', 'END', 'ESCAPED_CHAR'}`. -/
def isLeafType : TokType → Bool
  | .CHAR | .CLASS | .DOT | .START | .END | .ESCAPED_CHAR => true
  | _ => false

/-- The lookahead set of `Parser.term`:
`{'CHAR', 'CLASS', 'DOT', 'START', 'END', 'ESCAPED_CHAR', 'LPAREN'}`. -/
def isTermStart : TokType → Bool
  | .CHAR | .CLASS | .DOT | .START | .END | .ESCAPED_CHAR | .LPAREN => true
  | _ => false

/-- The lookahead set of the postfix loop in `Parser.factor`:
`{'STAR', 'QUANT'}`. -/
def isPostfixTok : TokType → Bool
  | .STAR | .QUANT => true
  | _ => false

/-- The `while`-loop of `Parser.factor`: absorb postfix `STAR`/`QUANT`
tokens around the accumulated atom.  It cannot fail.  The result carries
the proof that no tokens are invented, used for termination below. -/
def p_factorLoop (a : Node) : (ts : List Token) → Node × { r : List Token // r.length ≤ ts.length }
  | [] => (a, ⟨[], Nat.le_refl _⟩)
  | t :: rest =>
    if t.type = .STAR then
      match p_factorLoop (.star a) rest with
      | (n, ⟨r, hr⟩) => (n, ⟨r, by simpa using Nat.le_succ_of_le hr⟩)
    else if t.type = .QUANT then
      match p_factorLoop (.quant a t) rest with
      | (n, ⟨r, hr⟩) => (n, ⟨r, by simpa using Nat.le_succ_of_le hr⟩)
    else
      (a, ⟨t :: rest, Nat.le_refl _⟩)

mutual

/-- `Parser.atom`: a leaf token, or `LPAREN regex RPAREN` wrapped as a
`GROUP`.  On `None` (end of input) Python crashes reading
`self.current_token.type` (`noneTypeError`). -/
def p_atom : (ts : List Token) → Except ParseError (Node × { r : List Token // r.length < ts.length })
  | [] => .error .noneTypeError
  | t :: rest =>
    if isLeafType t.type then
      .ok (.tok t, ⟨rest, by simp⟩)
    else if t.type = .LPAREN then
      match p_regex rest with
      | .error e => .error e
      | .ok (n, ⟨rest2, h2⟩) =>
        match rest2, h2 with
        | [], _ => .error .unclosedGroup
        | t2 :: rest3, h2 =>
          if t2.type = .RPAREN then
            .ok (.group n, ⟨rest3, by simp at h2 ⊢; omega⟩)
          else
            .error .unclosedGroup
    else
      .error (.unexpectedToken t)
termination_by ts => (ts.length, 0)

/-- `Parser.factor`: an atom followed by the postfix loop. -/
def p_factor (ts : List Token) : Except ParseError (Node × { r : List Token // r.length < ts.length }) :=
  match p_atom ts with
  | .error e => .error e
  | .ok (a, ⟨r1, h1⟩) =>
    match p_factorLoop a r1 with
    | (n, ⟨r2, h2⟩) => .ok (n, ⟨r2, by omega⟩)
termination_by (ts.length, 1)

/-- The `while`-loop of `Parser.term`: as long as the lookahead can start
an atom, parse another factor and fold it into a left-nested `CONCAT`. -/
def p_termLoop (acc : Node) (ts : List Token) : Except ParseError (Node × { r : List Token // r.length ≤ ts.length }) :=
  match ts with
  | [] => .ok (acc, ⟨[], Nat.le_refl _⟩)
  | t :: rest =>
    if isTermStart t.type then
      match p_factor (t :: rest) with
      | .error e => .error e
      | .ok (f, ⟨r1, h1⟩) =>
        match p_termLoop (.concat acc f) r1 with
        | .error e => .error e
        | .ok (n, ⟨r2, h2⟩) => .ok (n, ⟨r2, by simp only [List.length_cons] at h1 ⊢; omega⟩)
    else
      .ok (acc, ⟨t :: rest, Nat.le_refl _⟩)
termination_by (ts.length, 2)

/-- `Parser.term`: one factor, then the concatenation loop. -/
def p_term (ts : List Token) : Except ParseError (Node × { r : List Token // r.length < ts.length }) :=
  match p_factor ts with
  | .error e => .error e
  | .ok (f, ⟨r1, h1⟩) =>
    match p_termLoop f r1 with
    | .error e => .error e
    | .ok (n, ⟨r2, h2⟩) => .ok (n, ⟨r2, by omega⟩)
termination_by (ts.length, 3)

/-- The `while`-loop of `Parser.regex`: as long as the lookahead is `ALT`,
consume it, parse another term, fold into a left-nested `ALT`. -/
def p_regexLoop (acc : Node) (ts : List Token) : Except ParseError (Node × { r : List Token // r.length ≤ ts.length }) :=
  match ts with
  | [] => .ok (acc, ⟨[], Nat.le_refl _⟩)
  | t :: rest =>
    if t.type = .ALT then
      match p_term rest with
      | .error e => .error e
      | .ok (n2, ⟨r1, h1⟩) =>
        match p_regexLoop (.alt acc n2) r1 with
        | .error e => .error e
        | .ok (n, ⟨r2, h2⟩) => .ok (n, ⟨r2, by simp only [List.length_cons] at h1 ⊢; omega⟩)
    else
      .ok (acc, ⟨t :: rest, Nat.le_refl _⟩)
termination_by (ts.length, 4)

/-- `Parser.regex`: one term, then the alternation loop. -/
def p_regex (ts : List Token) : Except ParseError (Node × { r : List Token // r.length < ts.length }) :=
  match p_term ts with
  | .error e => .error e
  | .ok (n1, ⟨r1, h1⟩) =>
    match p_regexLoop n1 r1 with
    | .error e => .error e
    | .ok (n, ⟨r2, h2⟩) => .ok (n, ⟨r2, by omega⟩)
termination_by (ts.length, 5)

end

/-- Forget the length certificate of a parser result. -/
def strip {P : List Token → Prop} (x : Except ParseError (Node × Subtype P)) :
    Except ParseError (Node × List Token) :=
  match x with
  | .error e => .error e
  | .ok (n, r) => .ok (n, r.val)

/-- `Parser.atom` as a plain state-passing function. -/
def atomR (ts : List Token) : Except ParseError (Node × List Token) := strip (p_atom ts)

/-- `Parser.factor` as a plain state-passing function. -/
def factorR (ts : List Token) : Except ParseError (Node × List Token) := strip (p_factor ts)

/-- The factor postfix loop as a plain state-passing function. -/
def factorLoopR (a : Node) (ts : List Token) : Node × List Token :=
  ((p_factorLoop a ts).1, (p_factorLoop a ts).2.val)

/-- `Parser.term` as a plain state-passing function. -/
def termR (ts : List Token) : Except ParseError (Node × List Token) := strip (p_term ts)

/-- The term concatenation loop as a plain state-passing function. -/
def termLoopR (acc : Node) (ts : List Token) : Except ParseError (Node × List Token) :=
  strip (p_termLoop acc ts)

/-- `Parser.regex` as a plain state-passing function. -/
def regexR (ts : List Token) : Except ParseError (Node × List Token) := strip (p_regex ts)

/-- The regex alternation loop as a plain state-passing function. -/
def regexLoopR (acc : Node) (ts : List Token) : Except ParseError (Node × List Token) :=
  strip (p_regexLoop acc ts)

/-- `Parser(tokens).parse()`: runs `Parser.regex` from the start and
returns its node, ignoring any tokens left over (the parser never checks
that the input was consumed). -/
def parse (ts : List Token) : Except ParseError Node :=
  match p_regex ts with
  | .error e => .error e
  | .ok (n, _) => .ok n

/-! ### Unfolding laws for the plain parser functions -/

theorem strip_eq_err {P : List Token → Prop} {x : Except ParseError (Node × Subtype P)}
    {e : ParseError} (h : strip x = .error e) : x = .error e := by
  cases x with
  | error e' => simpa [strip] using h
  | ok p => simp [strip] at h

theorem strip_eq_ok {P : List Token → Prop} {x : Except ParseError (Node × Subtype P)}
    {n : Node} {r : List Token} (h : strip x = .ok (n, r)) :
    ∃ hp : P r, x = .ok (n, ⟨r, hp⟩) := by
  cases x with
  | error e => simp [strip] at h
  | ok p =>
    obtain ⟨n', r', hp⟩ := p
    simp [strip] at h
    obtain ⟨rfl, rfl⟩ := h
    exact ⟨hp, rfl⟩

theorem factorLoopR_nil (a : Node) : factorLoopR a [] = (a, []) := by
  simp [factorLoopR, p_factorLoop]

theorem factorLoopR_star (a : Node) (t : Token) (rest : List Token) (h : t.type = .STAR) :
    factorLoopR a (t :: rest) = factorLoopR (.star a) rest := by
  rcases hfl : p_factorLoop (Node.star a) rest with ⟨n, r, hr⟩
  simp [factorLoopR, p_factorLoop, h, hfl]

theorem factorLoopR_quant (a : Node) (t : Token) (rest : List Token) (h : t.type = .QUANT) :
    factorLoopR a (t :: rest) = factorLoopR (.quant a t) rest := by
  rcases hfl : p_factorLoop (Node.quant a t) rest with ⟨n, r, hr⟩
  simp [factorLoopR, p_factorLoop, h, hfl]

theorem factorLoopR_stop (a : Node) (t : Token) (rest : List Token)
    (h1 : t.type ≠ .STAR) (h2 : t.type ≠ .QUANT) :
    factorLoopR a (t :: rest) = (a, t :: rest) := by
  simp [factorLoopR, p_factorLoop, h1, h2]

theorem atomR_nil : atomR [] = .error .noneTypeError := by
  unfold atomR
  rw [p_atom.eq_def]
  rfl

theorem atomR_leaf (t : Token) (rest : List Token) (h : isLeafType t.type = true) :
    atomR (t :: rest) = .ok (.tok t, rest) := by
  unfold atomR
  rw [p_atom.eq_def]
  simp [h, strip]

theorem atomR_lparen (t : Token) (rest : List Token) (h : t.type = .LPAREN) :
    atomR (t :: rest) =
      (match regexR rest with
      | .error e => .error e
      | .ok (n, rest2) =>
        match rest2 with
        | [] => .error .unclosedGroup
        | t2 :: rest3 =>
          if t2.type = .RPAREN then .ok (.group n, rest3) else .error .unclosedGroup) := by
  unfold atomR
  rw [p_atom.eq_def]
  cases hr : p_regex rest with
  | error e => simp +decide [h, regexR, strip, hr]
  | ok p =>
    obtain ⟨n, rest2, hp⟩ := p
    cases rest2 with
    | nil => simp +decide [h, regexR, strip, hr]
    | cons t2 rest3 =>
      by_cases ht2 : t2.type = .RPAREN
      · simp +decide [h, regexR, strip, hr, ht2]
      · simp +decide [h, regexR, strip, hr, ht2]

theorem atomR_bad (t : Token) (rest : List Token)
    (h1 : isLeafType t.type = false) (h2 : t.type ≠ .LPAREN) :
    atomR (t :: rest) = .error (.unexpectedToken t) := by
  unfold atomR
  rw [p_atom.eq_def]
  simp [h1, h2, strip]

theorem factorR_eq (ts : List Token) :
    factorR ts =
      (match atomR ts with
      | .error e => .error e
      | .ok (a, r1) => .ok (factorLoopR a r1)) := by
  unfold factorR atomR
  rw [p_factor.eq_def]
  cases ha : p_atom ts with
  | error e => simp [strip, ha]
  | ok p =>
    obtain ⟨a, r1, hp⟩ := p
    rcases hfl : p_factorLoop a r1 with ⟨n, r2, h2⟩
    simp [strip, ha, hfl, factorLoopR]

theorem termLoopR_nil (acc : Node) : termLoopR acc [] = .ok (acc, []) := by
  unfold termLoopR
  rw [p_termLoop.eq_def]
  rfl

theorem termLoopR_stop (acc : Node) (t : Token) (rest : List Token)
    (h : isTermStart t.type = false) :
    termLoopR acc (t :: rest) = .ok (acc, t :: rest) := by
  unfold termLoopR
  rw [p_termLoop.eq_def]
  simp [h, strip]

theorem termLoopR_cons (acc : Node) (t : Token) (rest : List Token)
    (h : isTermStart t.type = true) :
    termLoopR acc (t :: rest) =
      (match factorR (t :: rest) with
      | .error e => .error e
      | .ok (f, r1) => termLoopR (.concat acc f) r1) := by
  conv_lhs => unfold termLoopR; rw [p_termLoop.eq_def]
  simp only [h, if_true]
  cases hf : p_factor (t :: rest) with
  | error e => simp [factorR, strip, hf]
  | ok p =>
    obtain ⟨f, r1, hp⟩ := p
    simp only [factorR, strip, hf]
    cases htl : p_termLoop (.concat acc f) r1 with
    | error e => simp [termLoopR, strip, htl]
    | ok q =>
      obtain ⟨n, r2, hq⟩ := q
      simp [termLoopR, strip, htl]

theorem termR_eq (ts : List Token) :
    termR ts =
      (match factorR ts with
      | .error e => .error e
      | .ok (f, r1) => termLoopR f r1) := by
  unfold termR
  rw [p_term.eq_def]
  cases hf : p_factor ts with
  | error e => simp [factorR, strip, hf]
  | ok p =>
    obtain ⟨f, r1, hp⟩ := p
    simp only [factorR, strip, hf]
    cases htl : p_termLoop f r1 with
    | error e => simp [termLoopR, strip, htl]
    | ok q =>
      obtain ⟨n, r2, hq⟩ := q
      simp [termLoopR, strip, htl]

theorem regexLoopR_nil (acc : Node) : regexLoopR acc [] = .ok (acc, []) := by
  unfold regexLoopR
  rw [p_regexLoop.eq_def]
  rfl

theorem regexLoopR_stop (acc : Node) (t : Token) (rest : List Token)
    (h : t.type ≠ .ALT) :
    regexLoopR acc (t :: rest) = .ok (acc, t :: rest) := by
  unfold regexLoopR
  rw [p_regexLoop.eq_def]
  simp [h, strip]

theorem regexLoopR_cons (acc : Node) (t : Token) (rest : List Token)
    (h : t.type = .ALT) :
    regexLoopR acc (t :: rest) =
      (match termR rest with
      | .error e => .error e
      | .ok (n2, r1) => regexLoopR (.alt acc n2) r1) := by
  conv_lhs => unfold regexLoopR; rw [p_regexLoop.eq_def]
  simp only [h, if_true, if_pos rfl]
  cases ht : p_term rest with
  | error e => simp [termR, strip, ht]
  | ok p =>
    obtain ⟨n2, r1, hp⟩ := p
    simp only [termR, strip, ht]
    cases hrl : p_regexLoop (.alt acc n2) r1 with
    | error e => simp [regexLoopR, strip, hrl]
    | ok q =>
      obtain ⟨n, r2, hq⟩ := q
      simp [regexLoopR, strip, hrl]

theorem regexR_eq (ts : List Token) :
    regexR ts =
      (match termR ts with
      | .error e => .error e
      | .ok (n1, r1) => regexLoopR n1 r1) := by
  unfold regexR
  rw [p_regex.eq_def]
  cases ht : p_term ts with
  | error e => simp [termR, strip, ht]
  | ok p =>
    obtain ⟨n1, r1, hp⟩ := p
    simp only [termR, strip, ht]
    cases hrl : p_regexLoop n1 r1 with
    | error e => simp [regexLoopR, strip, hrl]
    | ok q =>
      obtain ⟨n, r2, hq⟩ := q
      simp [regexLoopR, strip, hrl]

theorem parse_eq (ts : List Token) :
    parse ts =
      (match regexR ts with
      | .error e => .error e
      | .ok (n, _) => .ok n) := by
  unfold parse
  cases hr : p_regex ts with
  | error e => simp [regexR, strip, hr]
  | ok p =>
    obtain ⟨n, r, hp⟩ := p
    simp [regexR, strip, hr]

theorem atomR_length {ts : List Token} {n : Node} {r : List Token}
    (h : atomR ts = .ok (n, r)) : r.length < ts.length := by
  obtain ⟨hp, _⟩ := strip_eq_ok h
  exact hp

theorem factorR_length {ts : List Token} {n : Node} {r : List Token}
    (h : factorR ts = .ok (n, r)) : r.length < ts.length := by
  obtain ⟨hp, _⟩ := strip_eq_ok h
  exact hp

theorem termR_length {ts : List Token} {n : Node} {r : List Token}
    (h : termR ts = .ok (n, r)) : r.length < ts.length := by
  obtain ⟨hp, _⟩ := strip_eq_ok h
  exact hp

theorem regexR_length {ts : List Token} {n : Node} {r : List Token}
    (h : regexR ts = .ok (n, r)) : r.length < ts.length := by
  obtain ⟨hp, _⟩ := strip_eq_ok h
  exact hp

/-! ### Well-formedness of parser output -/

mutual

/-- Shape of the nodes `Parser.factor` can return: a leaf token, a
group, or `STAR`/`QUANT` wrappers around such, with well-shaped tokens
throughout. -/
def wfF : Node → Bool
  | .tok t => isLeafType t.type && tokOK t
  | .group x => wfR x
  | .star x => wfF x
  | .quant x q => wfF x && (q.type == .QUANT) && tokOK q
  | _ => false
termination_by n => (sizeOf n, 0)

/-- Shape of the nodes `Parser.term` can return. -/
def wfT : Node → Bool
  | .concat l r => wfT l && wfF r
  | n => wfF n
termination_by n => (sizeOf n, 1)

/-- Shape of the nodes `Parser.regex` (hence `Parser.parse`) can return. -/
def wfR : Node → Bool
  | .alt l r => wfR l && wfT r
  | n => wfT n
termination_by n => (sizeOf n, 2)

end

theorem wfF_tok (t : Token) : wfF (.tok t) = (isLeafType t.type && tokOK t) := by
  rw [wfF.eq_def]

theorem wfF_group (x : Node) : wfF (.group x) = wfR x := by
  rw [wfF.eq_def]

theorem wfF_star (x : Node) : wfF (.star x) = wfF x := by
  rw [wfF.eq_def]

theorem wfF_quant (x : Node) (q : Token) :
    wfF (.quant x q) = (wfF x && (q.type == .QUANT) && tokOK q) := by
  rw [wfF.eq_def]

theorem wfF_concat (l r : Node) : wfF (.concat l r) = false := by
  rw [wfF.eq_def]

theorem wfF_alt (l r : Node) : wfF (.alt l r) = false := by
  rw [wfF.eq_def]

theorem wfT_concat (l r : Node) : wfT (.concat l r) = (wfT l && wfF r) := by
  rw [wfT.eq_def]

theorem wfT_tok (t : Token) : wfT (.tok t) = wfF (.tok t) := by
  rw [wfT.eq_def]

theorem wfT_star (x : Node) : wfT (.star x) = wfF (.star x) := by
  rw [wfT.eq_def]

theorem wfT_quant (x : Node) (q : Token) : wfT (.quant x q) = wfF (.quant x q) := by
  rw [wfT.eq_def]

theorem wfT_group (x : Node) : wfT (.group x) = wfF (.group x) := by
  rw [wfT.eq_def]

theorem wfT_alt (l r : Node) : wfT (.alt l r) = wfF (.alt l r) := by
  rw [wfT.eq_def]

theorem wfR_alt (l r : Node) : wfR (.alt l r) = (wfR l && wfT r) := by
  rw [wfR.eq_def]

theorem wfR_tok (t : Token) : wfR (.tok t) = wfT (.tok t) := by
  rw [wfR.eq_def]

theorem wfR_star (x : Node) : wfR (.star x) = wfT (.star x) := by
  rw [wfR.eq_def]

theorem wfR_quant (x : Node) (q : Token) : wfR (.quant x q) = wfT (.quant x q) := by
  rw [wfR.eq_def]

theorem wfR_group (x : Node) : wfR (.group x) = wfT (.group x) := by
  rw [wfR.eq_def]

theorem wfR_concat (l r : Node) : wfR (.concat l r) = wfT (.concat l r) := by
  rw [wfR.eq_def]

/-- A factor-shaped node is term-shaped. -/
theorem wfT_of_wfF {n : Node} (h : wfF n = true) : wfT n = true := by
  cases n with
  | concat l r => rw [wfF_concat] at h; cases h
  | tok t => rwa [wfT_tok]
  | star x => rwa [wfT_star]
  | quant x q => rwa [wfT_quant]
  | group x => rwa [wfT_group]
  | alt l r => rw [wfF_alt] at h; cases h

/-- A term-shaped node is regex-shaped. -/
theorem wfR_of_wfT {n : Node} (h : wfT n = true) : wfR n = true := by
  cases n with
  | alt l r => rw [wfT_alt, wfF_alt] at h; cases h
  | tok t => rwa [wfR_tok]
  | star x => rwa [wfR_star]
  | quant x q => rwa [wfR_quant]
  | group x => rwa [wfR_group]
  | concat l r => rwa [wfR_concat]

/-- The postfix loop preserves factor shape and invents no tokens. -/
theorem factorLoopR_wf : ∀ (ts : List Token) (a : Node),
    (∀ t ∈ ts, tokOK t = true) → wfF a = true →
    wfF (factorLoopR a ts).1 = true ∧ ∀ t ∈ (factorLoopR a ts).2, tokOK t = true := by
  intro ts
  induction ts with
  | nil =>
    intro a _ ha
    rw [factorLoopR_nil]
    exact ⟨ha, by simp⟩
  | cons t rest ih =>
    intro a hOK ha
    by_cases hstar : t.type = .STAR
    · rw [factorLoopR_star a t rest hstar]
      exact ih (.star a) (fun u hu => hOK u (by simp [hu])) (by rwa [wfF_star])
    · by_cases hquant : t.type = .QUANT
      · rw [factorLoopR_quant a t rest hquant]
        refine ih (.quant a t) (fun u hu => hOK u (by simp [hu])) ?_
        rw [wfF_quant]
        simp [ha, hquant, hOK t (by simp)]
      · rw [factorLoopR_stop a t rest hstar hquant]
        exact ⟨ha, hOK⟩

/-- Level-indexed invariant: on inputs of well-shaped tokens, every parser
level returns a node of the matching shape, and leaves a suffix of
well-shaped tokens. -/
theorem parser_wf_aux : ∀ N : Nat,
    (∀ ts n r, ts.length ≤ N → (∀ t ∈ ts, tokOK t = true) → atomR ts = .ok (n, r) →
      wfF n = true ∧ ∀ t ∈ r, tokOK t = true) ∧
    (∀ ts n r, ts.length ≤ N → (∀ t ∈ ts, tokOK t = true) → factorR ts = .ok (n, r) →
      wfF n = true ∧ ∀ t ∈ r, tokOK t = true) ∧
    (∀ ts acc n r, ts.length ≤ N → (∀ t ∈ ts, tokOK t = true) → wfT acc = true →
      termLoopR acc ts = .ok (n, r) → wfT n = true ∧ ∀ t ∈ r, tokOK t = true) ∧
    (∀ ts n r, ts.length ≤ N → (∀ t ∈ ts, tokOK t = true) → termR ts = .ok (n, r) →
      wfT n = true ∧ ∀ t ∈ r, tokOK t = true) ∧
    (∀ ts acc n r, ts.length ≤ N → (∀ t ∈ ts, tokOK t = true) → wfR acc = true →
      regexLoopR acc ts = .ok (n, r) → wfR n = true ∧ ∀ t ∈ r, tokOK t = true) ∧
    (∀ ts n r, ts.length ≤ N → (∀ t ∈ ts, tokOK t = true) → regexR ts = .ok (n, r) →
      wfR n = true ∧ ∀ t ∈ r, tokOK t = true) := by
  intro N
  induction N with
  | zero =>
    have hnil : ∀ ts : List Token, ts.length ≤ 0 → ts = [] := by
      intro ts h
      exact List.eq_nil_of_length_eq_zero (Nat.le_zero.mp h)
    have hfnil : factorR [] = .error .noneTypeError := by
      rw [factorR_eq, atomR_nil]
    have htnil : termR [] = .error .noneTypeError := by
      rw [termR_eq, hfnil]
    refine ⟨?_, ?_, ?_, ?_, ?_, ?_⟩
    · intro ts n r hlen hOK hrun
      rw [hnil ts hlen, atomR_nil] at hrun
      cases hrun
    · intro ts n r hlen hOK hrun
      rw [hnil ts hlen, hfnil] at hrun
      cases hrun
    · intro ts acc n r hlen hOK hacc hrun
      rw [hnil ts hlen, termLoopR_nil] at hrun
      have h2 : acc = n ∧ ([] : List Token) = r := by simpa using hrun
      obtain ⟨rfl, rfl⟩ := h2
      exact ⟨hacc, by simp⟩
    · intro ts n r hlen hOK hrun
      rw [hnil ts hlen, htnil] at hrun
      cases hrun
    · intro ts acc n r hlen hOK hacc hrun
      rw [hnil ts hlen, regexLoopR_nil] at hrun
      have h2 : acc = n ∧ ([] : List Token) = r := by simpa using hrun
      obtain ⟨rfl, rfl⟩ := h2
      exact ⟨hacc, by simp⟩
    · intro ts n r hlen hOK hrun
      rw [hnil ts hlen, regexR_eq, htnil] at hrun
      cases hrun
  | succ N ih =>
    obtain ⟨ihA, ihF, ihTL, ihT, ihRL, ihR⟩ := ih
    -- atom
    have hA : ∀ ts n r, ts.length ≤ N + 1 → (∀ t ∈ ts, tokOK t = true) → atomR ts = .ok (n, r) →
        wfF n = true ∧ ∀ t ∈ r, tokOK t = true := by
      intro ts n r hlen hOK hrun
      cases ts with
      | nil => rw [atomR_nil] at hrun; cases hrun
      | cons t rest =>
        by_cases hleaf : isLeafType t.type = true
        · rw [atomR_leaf t rest hleaf] at hrun
          have h2 : Node.tok t = n ∧ rest = r := by simpa using hrun
          obtain ⟨rfl, rfl⟩ := h2
          refine ⟨?_, fun u hu => hOK u (by simp [hu])⟩
          rw [wfF_tok]
          simp [hleaf, hOK t (by simp)]
        · by_cases hlp : t.type = .LPAREN
          · rw [atomR_lparen t rest hlp] at hrun
            cases hreg : regexR rest with
            | error e => rw [hreg] at hrun; cases hrun
            | ok p =>
              obtain ⟨n2, rest2⟩ := p
              rw [hreg] at hrun
              cases rest2 with
              | nil => exact absurd hrun (by simp)
              | cons t2 rest3 =>
                by_cases ht2 : t2.type = .RPAREN
                · simp only [ht2, if_true] at hrun
                  have h2 : Node.group n2 = n ∧ rest3 = r := by simpa using hrun
                  obtain ⟨rfl, rfl⟩ := h2
                  have hrec := ihR rest n2 (t2 :: rest3)
                    (by simp only [List.length_cons] at hlen; omega)
                    (fun u hu => hOK u (by simp [hu])) hreg
                  refine ⟨?_, fun u hu => hrec.2 u (by simp [hu])⟩
                  rw [wfF_group]
                  exact hrec.1
                · simp [ht2] at hrun
          · rw [atomR_bad t rest (by simpa using hleaf) hlp] at hrun
            cases hrun
    -- factor
    have hF : ∀ ts n r, ts.length ≤ N + 1 → (∀ t ∈ ts, tokOK t = true) → factorR ts = .ok (n, r) →
        wfF n = true ∧ ∀ t ∈ r, tokOK t = true := by
      intro ts n r hlen hOK hrun
      rw [factorR_eq] at hrun
      cases hat : atomR ts with
      | error e => rw [hat] at hrun; cases hrun
      | ok p =>
        obtain ⟨a, r1⟩ := p
        rw [hat] at hrun
        have h2 : factorLoopR a r1 = (n, r) := by simpa using hrun
        have hrec := hA ts a r1 hlen hOK hat
        have hfl := factorLoopR_wf r1 a hrec.2 hrec.1
        rw [h2] at hfl
        exact hfl
    -- term loop
    have hTL : ∀ ts acc n r, ts.length ≤ N + 1 → (∀ t ∈ ts, tokOK t = true) → wfT acc = true →
        termLoopR acc ts = .ok (n, r) → wfT n = true ∧ ∀ t ∈ r, tokOK t = true := by
      intro ts acc n r hlen hOK hacc hrun
      cases ts with
      | nil =>
        rw [termLoopR_nil] at hrun
        have h2 : acc = n ∧ ([] : List Token) = r := by simpa using hrun
        obtain ⟨rfl, rfl⟩ := h2
        exact ⟨hacc, by simp⟩
      | cons t rest =>
        by_cases hts : isTermStart t.type = true
        · rw [termLoopR_cons acc t rest hts] at hrun
          cases hfac : factorR (t :: rest) with
          | error e => rw [hfac] at hrun; cases hrun
          | ok p =>
            obtain ⟨f, r1⟩ := p
            rw [hfac] at hrun
            have hrecF := hF (t :: rest) f r1 hlen hOK hfac
            have hlen1 : r1.length ≤ N := by
              have := factorR_length hfac
              simp only [List.length_cons] at this hlen
              omega
            exact ihTL r1 (.concat acc f) n r hlen1 hrecF.2
              (by rw [wfT_concat]; simp [hacc, hrecF.1]) hrun
        · rw [termLoopR_stop acc t rest (by simpa using hts)] at hrun
          have h2 : acc = n ∧ t :: rest = r := by simpa using hrun
          obtain ⟨rfl, rfl⟩ := h2
          exact ⟨hacc, hOK⟩
    -- term
    have hT : ∀ ts n r, ts.length ≤ N + 1 → (∀ t ∈ ts, tokOK t = true) → termR ts = .ok (n, r) →
        wfT n = true ∧ ∀ t ∈ r, tokOK t = true := by
      intro ts n r hlen hOK hrun
      rw [termR_eq] at hrun
      cases hfac : factorR ts with
      | error e => rw [hfac] at hrun; cases hrun
      | ok p =>
        obtain ⟨f, r1⟩ := p
        rw [hfac] at hrun
        have hrecF := hF ts f r1 hlen hOK hfac
        have hlen1 : r1.length ≤ N + 1 := by
          have := factorR_length hfac
          omega
        exact hTL r1 f n r hlen1 hrecF.2 (wfT_of_wfF hrecF.1) hrun
    -- regex loop
    have hRL : ∀ ts acc n r, ts.length ≤ N + 1 → (∀ t ∈ ts, tokOK t = true) → wfR acc = true →
        regexLoopR acc ts = .ok (n, r) → wfR n = true ∧ ∀ t ∈ r, tokOK t = true := by
      intro ts acc n r hlen hOK hacc hrun
      cases ts with
      | nil =>
        rw [regexLoopR_nil] at hrun
        have h2 : acc = n ∧ ([] : List Token) = r := by simpa using hrun
        obtain ⟨rfl, rfl⟩ := h2
        exact ⟨hacc, by simp⟩
      | cons t rest =>
        by_cases halt : t.type = .ALT
        · rw [regexLoopR_cons acc t rest halt] at hrun
          cases hterm : termR rest with
          | error e => rw [hterm] at hrun; cases hrun
          | ok p =>
            obtain ⟨n2, r1⟩ := p
            rw [hterm] at hrun
            have hrecT := hT rest n2 r1
              (by simp only [List.length_cons] at hlen; omega)
              (fun u hu => hOK u (by simp [hu])) hterm
            have hlen1 : r1.length ≤ N := by
              have := termR_length hterm
              simp only [List.length_cons] at hlen
              omega
            exact ihRL r1 (.alt acc n2) n r hlen1 hrecT.2
              (by rw [wfR_alt]; simp [hacc, hrecT.1]) hrun
        · rw [regexLoopR_stop acc t rest halt] at hrun
          have h2 : acc = n ∧ t :: rest = r := by simpa using hrun
          obtain ⟨rfl, rfl⟩ := h2
          exact ⟨hacc, hOK⟩
    -- regex
    have hR : ∀ ts n r, ts.length ≤ N + 1 → (∀ t ∈ ts, tokOK t = true) → regexR ts = .ok (n, r) →
        wfR n = true ∧ ∀ t ∈ r, tokOK t = true := by
      intro ts n r hlen hOK hrun
      rw [regexR_eq] at hrun
      cases hterm : termR ts with
      | error e => rw [hterm] at hrun; cases hrun
      | ok p =>
        obtain ⟨n1, r1⟩ := p
        rw [hterm] at hrun
        have hrecT := hT ts n1 r1 hlen hOK hterm
        have hlen1 : r1.length ≤ N + 1 := by
          have := termR_length hterm
          omega
        exact hRL r1 n1 n r hlen1 hrecT.2 (wfR_of_wfT hrecT.1) hrun
    exact ⟨hA, hF, hTL, hT, hRL, hR⟩

/-- Parser invariant: parsing a list of well-shaped tokens yields a
regex-shaped node. -/
theorem parse_wf {ts : List Token} {n : Node}
    (hOK : ∀ t ∈ ts, tokOK t = true) (h : parse ts = .ok n) : wfR n = true := by
  rw [parse_eq] at h
  cases hreg : regexR ts with
  | error e => rw [hreg] at h; cases h
  | ok p =>
    obtain ⟨n2, r⟩ := p
    rw [hreg] at h
    have h2 : n2 = n := by simpa using h
    subst h2
    exact ((parser_wf_aux ts.length).2.2.2.2.2 ts n2 r (Nat.le_refl _) hOK hreg).1

/-! ### The serializer `compile` -/

/-- The failure modes of the Python serializer `compile`. -/
inductive SerializeError where
  /-- `raise ValueError(f"Unknown node type: ...")`: the final `else`. -/
  | unknownNodeKind (k : TokType)
  /-- Python `AttributeError`: `compile` reads `tree.left` (or
  `tree.right.value`) on a bare `Token`, which has neither attribute.
  Reachable only for trees no `Parser` run produces. -/
  | attributeError
deriving DecidableEq, Repr

/-- The serializer.  Python `compile` dispatches on `tree.type` in source
order `CHAR, STAR, CONCAT, ALT, CLASS, DOT, START, END, ESCAPED_CHAR,
QUANT, GROUP`, else raises `Unknown node type`.  A bare `Token` leaf of
type `STAR`/`ALT`/`QUANT` reaches `compile(tree.left)` and crashes
(`attributeError`); a bare `LPAREN`/`RPAREN` token reaches the final
`else`.  Proper two-field nodes always carry one of the five `Node`
types, which are all handled. -/
def compile : Node → Except SerializeError String
  | .tok t =>
    if t.type = .CHAR then .ok t.value
    else if t.type = .STAR then .error .attributeError
    else if t.type = .ALT then .error .attributeError
    else if t.type = .CLASS then .ok ("[" ++ t.value ++ "]")
    else if t.type = .DOT then .ok "."
    else if t.type = .START then .ok "^"
    else if t.type = .END then .ok "$"
    else if t.type = .ESCAPED_CHAR then .ok ("\\" ++ t.value)
    else if t.type = .QUANT then .error .attributeError
    else .error (.unknownNodeKind t.type)
  | .star x => (compile x).map (fun s => "(" ++ s ++ ")*")
  | .concat l r =>
    match compile l with
    | .error e => .error e
    | .ok sl =>
      match compile r with
      | .error e => .error e
      | .ok sr => .ok (sl ++ sr)
  | .alt l r =>
    match compile l with
    | .error e => .error e
    | .ok sl =>
      match compile r with
      | .error e => .error e
      | .ok sr => .ok ("(" ++ sl ++ "|" ++ sr ++ ")")
  | .quant x q => (compile x).map (fun s => s ++ q.value)
  | .group x => (compile x).map (fun s => "(" ++ s ++ ")")

/-- The token list that retokenizing `compile n` produces, for trees whose
leaf tokens are well shaped. -/
def toks : Node → List Token
  | .tok t => [t]
  | .star x => ⟨.LPAREN, "("⟩ :: toks x ++ [⟨.RPAREN, ")"⟩, ⟨.STAR, "*"⟩]
  | .concat l r => toks l ++ toks r
  | .alt l r => ⟨.LPAREN, "("⟩ :: toks l ++ ⟨.ALT, "|"⟩ :: toks r ++ [⟨.RPAREN, ")"⟩]
  | .quant x q => toks x ++ [q]
  | .group x => ⟨.LPAREN, "("⟩ :: toks x ++ [⟨.RPAREN, ")"⟩]

/-- Every leaf token of the tree is a well-shaped atom token, and every
`QUANT` node carries a well-shaped `QUANT` token. -/
def leavesOK : Node → Bool
  | .tok t => isLeafType t.type && tokOK t
  | .star x => leavesOK x
  | .concat l r => leavesOK l && leavesOK r
  | .alt l r => leavesOK l && leavesOK r
  | .quant x q => leavesOK x && (q.type == .QUANT) && tokOK q
  | .group x => leavesOK x

theorem leavesOK_of_wf : ∀ n : Node,
    (wfF n = true → leavesOK n = true) ∧ (wfT n = true → leavesOK n = true) ∧
    (wfR n = true → leavesOK n = true) := by
  intro n
  induction n with
  | tok t =>
    refine ⟨?_, ?_, ?_⟩
    · intro h
      rw [wfF_tok] at h
      simpa [leavesOK] using h
    · intro h
      rw [wfT_tok, wfF_tok] at h
      simpa [leavesOK] using h
    · intro h
      rw [wfR_tok, wfT_tok, wfF_tok] at h
      simpa [leavesOK] using h
  | star x ihx =>
    have hf : wfF (.star x) = true → leavesOK (.star x) = true := by
      intro h
      rw [wfF_star] at h
      simpa [leavesOK] using ihx.1 h
    exact ⟨hf, fun h => hf (by rwa [wfT_star] at h),
      fun h => hf (by rw [wfR_star, wfT_star] at h; exact h)⟩
  | concat l r ihl ihr =>
    have ht : wfT (.concat l r) = true → leavesOK (.concat l r) = true := by
      intro h
      rw [wfT_concat] at h
      simp only [Bool.and_eq_true] at h
      simp [leavesOK, ihl.2.1 h.1, ihr.1 h.2]
    refine ⟨?_, ht, fun h => ht (by rwa [wfR_concat] at h)⟩
    intro h
    rw [wfF_concat] at h
    cases h
  | alt l r ihl ihr =>
    refine ⟨?_, ?_, ?_⟩
    · intro h
      rw [wfF_alt] at h
      cases h
    · intro h
      rw [wfT_alt, wfF_alt] at h
      cases h
    · intro h
      rw [wfR_alt] at h
      simp only [Bool.and_eq_true] at h
      simp [leavesOK, ihl.2.2 h.1, ihr.2.1 h.2]
  | quant x q ihx =>
    have hf : wfF (.quant x q) = true → leavesOK (.quant x q) = true := by
      intro h
      rw [wfF_quant] at h
      simp only [Bool.and_eq_true] at h
      simp [leavesOK, ihx.1 h.1.1, h.1.2, h.2]
    exact ⟨hf, fun h => hf (by rwa [wfT_quant] at h),
      fun h => hf (by rw [wfR_quant, wfT_quant] at h; exact h)⟩
  | group x ihx =>
    have hf : wfF (.group x) = true → leavesOK (.group x) = true := by
      intro h
      rw [wfF_group] at h
      simpa [leavesOK] using ihx.2.2 h
    exact ⟨hf, fun h => hf (by rwa [wfT_group] at h),
      fun h => hf (by rw [wfR_group, wfT_group] at h; exact h)⟩

/-! ### Token shape inversion lemmas -/

theorem tokOK_char_inv {t : Token} (ht : t.type = .CHAR) (h : tokOK t = true) :
    ∃ c, charSet c = true ∧ t.value.data = [c] := by
  unfold tokOK at h
  rw [ht] at h
  cases hv : t.value.data with
  | nil => rw [hv] at h; simp at h
  | cons c l =>
    rw [hv] at h
    cases l with
    | nil => exact ⟨c, h, rfl⟩
    | cons d l2 => simp at h

theorem tokOK_escaped_inv {t : Token} (ht : t.type = .ESCAPED_CHAR) (h : tokOK t = true) :
    ∃ c, t.value.data = [c] := by
  unfold tokOK at h
  rw [ht] at h
  cases hv : t.value.data with
  | nil => rw [hv] at h; simp at h
  | cons c l =>
    rw [hv] at h
    cases l with
    | nil => exact ⟨c, rfl⟩
    | cons d l2 => simp at h

theorem tokOK_class_inv {t : Token} (ht : t.type = .CLASS) (h : tokOK t = true) :
    ∀ a ∈ t.value.data, (a != ']') = true := by
  unfold tokOK at h
  rw [ht] at h
  intro a ha
  simp only [Bool.not_eq_true'] at h
  rcases eq_or_ne a ']' with rfl | hne
  · exfalso
    rw [List.contains_eq_any_beq] at h
    have : t.value.data.any (fun x => ']' == x) = true := by
      simp only [List.any_eq_true]
      exact ⟨']', ha, by simp⟩
    rw [this] at h
    cases h
  · simpa using hne

theorem tokOK_quant_inv {q : Token} (hq : q.type = .QUANT) (h : tokOK q = true) :
    ∃ inner, (∀ a ∈ inner, (a != '}') = true) ∧ q.value.data = '{' :: (inner ++ ['}']) := by
  unfold tokOK at h
  rw [hq] at h
  cases hv : q.value.data with
  | nil => rw [hv] at h; simp at h
  | cons c l =>
    rw [hv] at h
    simp only [Bool.and_eq_true, beq_iff_eq] at h
    obtain ⟨rfl, hl⟩ := h
    refine ⟨l.takeWhile (fun d => d != '}'), ?_, ?_⟩
    · intro a ha
      have := List.mem_takeWhile_imp ha
      simpa using this
    · rw [hl]

theorem tokOK_start_inv {t : Token} (ht : t.type = .START) (h : tokOK t = true) :
    t.value.data = ['^'] := by
  unfold tokOK at h
  rw [ht] at h
  simpa using h

theorem tokOK_end_inv {t : Token} (ht : t.type = .END) (h : tokOK t = true) :
    t.value.data = ['$'] := by
  unfold tokOK at h
  rw [ht] at h
  simpa using h

theorem tokOK_not_dot {t : Token} (h : tokOK t = true) : t.type ≠ .DOT := by
  intro ht
  unfold tokOK at h
  rw [ht] at h
  cases h

/-! ### Retokenizing a serialized tree -/

/-- On trees with well-shaped leaves, `compile` succeeds and its output
retokenizes to `toks n`, in any right context `r`. -/
theorem compile_tokChars : ∀ n : Node, leavesOK n = true →
    ∃ s : String, compile n = .ok s ∧
      ∀ r : List Char, tokChars (s.data ++ r) = (tokChars r).map (fun ts => toks n ++ ts) := by
  intro n
  induction n with
  | tok t =>
    intro h
    simp only [leavesOK, Bool.and_eq_true] at h
    obtain ⟨hleaf, hok⟩ := h
    cases htt : t.type with
    | CHAR =>
      obtain ⟨c, hc, hvdata⟩ := tokOK_char_inv htt hok
      refine ⟨t.value, by simp [compile, htt], ?_⟩
      intro r
      rw [hvdata]
      simp only [List.singleton_append]
      rw [tokChars_charSet c r hc]
      have hteq : (⟨.CHAR, String.mk [c]⟩ : Token) = t := by
        obtain ⟨ty, v⟩ := t
        have hty : ty = .CHAR := by simpa using htt
        have hv : v.data = [c] := by simpa using hvdata
        subst hty
        exact congrArg (Token.mk .CHAR) (congrArg String.mk hv.symm)
      rw [hteq]
      cases tokChars r <;> simp [Except.map, toks]
    | CLASS =>
      have hmem := tokOK_class_inv htt hok
      refine ⟨"[" ++ t.value ++ "]", by simp [compile, htt], ?_⟩
      intro r
      have hd : ("[" ++ t.value ++ "]").data ++ r = '[' :: (t.value.data ++ ']' :: r) := by
        show (("[".data ++ t.value.data) ++ "]".data) ++ r = _
        simp
      rw [hd, tokChars_class t.value.data r hmem]
      have hteq : (⟨.CLASS, String.mk t.value.data⟩ : Token) = t := by
        obtain ⟨ty, v⟩ := t
        have hty : ty = .CLASS := by simpa using htt
        subst hty
        rfl
      rw [hteq]
      cases tokChars r <;> simp [Except.map, toks]
    | DOT => exact absurd htt (tokOK_not_dot hok)
    | START =>
      have hvdata := tokOK_start_inv htt hok
      refine ⟨"^", by simp [compile, htt], ?_⟩
      intro r
      have hd : ("^" : String).data ++ r = '^' :: r := rfl
      rw [hd, tokChars_start r]
      have hteq : (⟨.START, "^"⟩ : Token) = t := by
        obtain ⟨ty, v⟩ := t
        have hty : ty = .START := by simpa using htt
        have hv : v.data = ['^'] := by simpa using hvdata
        subst hty
        exact congrArg (Token.mk .START) (congrArg String.mk hv.symm)
      rw [hteq]
      cases tokChars r <;> simp [Except.map, toks]
    | END =>
      have hvdata := tokOK_end_inv htt hok
      refine ⟨"$", by simp [compile, htt], ?_⟩
      intro r
      have hd : ("$" : String).data ++ r = '$' :: r := rfl
      rw [hd, tokChars_end r]
      have hteq : (⟨.END, "$"⟩ : Token) = t := by
        obtain ⟨ty, v⟩ := t
        have hty : ty = .END := by simpa using htt
        have hv : v.data = ['$'] := by simpa using hvdata
        subst hty
        exact congrArg (Token.mk .END) (congrArg String.mk hv.symm)
      rw [hteq]
      cases tokChars r <;> simp [Except.map, toks]
    | ESCAPED_CHAR =>
      obtain ⟨c, hvdata⟩ := tokOK_escaped_inv htt hok
      refine ⟨"\\" ++ t.value, by simp [compile, htt], ?_⟩
      intro r
      have hd : ("\\" ++ t.value).data ++ r = '\\' :: c :: r := by
        show ("\\".data ++ t.value.data) ++ r = _
        rw [hvdata]
        rfl
      rw [hd, tokChars_escape c r]
      have hteq : (⟨.ESCAPED_CHAR, String.mk [c]⟩ : Token) = t := by
        obtain ⟨ty, v⟩ := t
        have hty : ty = .ESCAPED_CHAR := by simpa using htt
        have hv : v.data = [c] := by simpa using hvdata
        subst hty
        exact congrArg (Token.mk .ESCAPED_CHAR) (congrArg String.mk hv.symm)
      rw [hteq]
      cases tokChars r <;> simp [Except.map, toks]
    | STAR => rw [htt] at hleaf; exact absurd hleaf (by decide)
    | ALT => rw [htt] at hleaf; exact absurd hleaf (by decide)
    | QUANT => rw [htt] at hleaf; exact absurd hleaf (by decide)
    | LPAREN => rw [htt] at hleaf; exact absurd hleaf (by decide)
    | RPAREN => rw [htt] at hleaf; exact absurd hleaf (by decide)
  | star x ihx =>
    intro h
    simp only [leavesOK] at h
    obtain ⟨sx, hcx, htx⟩ := ihx h
    refine ⟨"(" ++ sx ++ ")*", by simp [compile, hcx, Except.map], ?_⟩
    intro r
    rw [show ("(" ++ sx ++ ")*").data ++ r = '(' :: (sx.data ++ (')' :: '*' :: r)) from by
      show (("(".data ++ sx.data) ++ ")*".data) ++ r = _
      simp]
    rw [tokChars_lparen, htx (')' :: '*' :: r), tokChars_rparen, tokChars_star]
    cases tokChars r <;> simp [Except.map, toks]
  | concat l r ihl ihr =>
    intro h
    simp only [leavesOK, Bool.and_eq_true] at h
    obtain ⟨sl, hcl, htl⟩ := ihl h.1
    obtain ⟨sr, hcr, htr⟩ := ihr h.2
    refine ⟨sl ++ sr, by simp [compile, hcl, hcr], ?_⟩
    intro r0
    rw [show (sl ++ sr).data ++ r0 = sl.data ++ (sr.data ++ r0) from by
      show (sl.data ++ sr.data) ++ r0 = _
      simp]
    rw [htl (sr.data ++ r0), htr r0]
    cases tokChars r0 <;> simp [Except.map, toks]
  | alt l r ihl ihr =>
    intro h
    simp only [leavesOK, Bool.and_eq_true] at h
    obtain ⟨sl, hcl, htl⟩ := ihl h.1
    obtain ⟨sr, hcr, htr⟩ := ihr h.2
    refine ⟨"(" ++ sl ++ "|" ++ sr ++ ")", by simp [compile, hcl, hcr], ?_⟩
    intro r0
    rw [show ("(" ++ sl ++ "|" ++ sr ++ ")").data ++ r0 =
        '(' :: (sl.data ++ ('|' :: (sr.data ++ (')' :: r0)))) from by
      show (((("(".data ++ sl.data) ++ "|".data) ++ sr.data) ++ ")".data) ++ r0 = _
      simp]
    rw [tokChars_lparen, htl ('|' :: (sr.data ++ (')' :: r0))), tokChars_alt,
      htr (')' :: r0), tokChars_rparen]
    cases tokChars r0 <;> simp [Except.map, toks]
  | quant x q ihx =>
    intro h
    simp only [leavesOK, Bool.and_eq_true, beq_iff_eq] at h
    obtain ⟨⟨hx, hqt⟩, hqok⟩ := h
    obtain ⟨sx, hcx, htx⟩ := ihx hx
    obtain ⟨inner, hmem, hvdata⟩ := tokOK_quant_inv hqt hqok
    refine ⟨sx ++ q.value, by simp [compile, hcx, Except.map], ?_⟩
    intro r0
    rw [show (sx ++ q.value).data ++ r0 = sx.data ++ ('{' :: (inner ++ '}' :: r0)) from by
      show (sx.data ++ q.value.data) ++ r0 = _
      rw [hvdata]
      simp]
    rw [htx ('{' :: (inner ++ '}' :: r0)), tokChars_quant inner r0 hmem]
    have hqeq : (⟨.QUANT, String.mk ('{' :: inner ++ ['}'])⟩ : Token) = q := by
      obtain ⟨ty, v⟩ := q
      have hty : ty = .QUANT := by simpa using hqt
      have hv : v.data = '{' :: (inner ++ ['}']) := by simpa using hvdata
      subst hty
      exact congrArg (Token.mk .QUANT) (congrArg String.mk hv.symm)
    rw [hqeq]
    cases tokChars r0 <;> simp [Except.map, toks]
  | group x ihx =>
    intro h
    simp only [leavesOK] at h
    obtain ⟨sx, hcx, htx⟩ := ihx h
    refine ⟨"(" ++ sx ++ ")", by simp [compile, hcx, Except.map], ?_⟩
    intro r
    rw [show ("(" ++ sx ++ ")").data ++ r = '(' :: (sx.data ++ (')' :: r)) from by
      show (("(".data ++ sx.data) ++ ")".data) ++ r = _
      simp]
    rw [tokChars_lparen, htx (')' :: r), tokChars_rparen]
    cases tokChars r <;> simp [Except.map, toks]

/-! ### Reparsing a serialized tree -/

/-- The continuation does not start with a postfix token. -/
def headIsPostfix : List Token → Bool
  | [] => false
  | t :: _ => isPostfixTok t.type

/-- The continuation starts a new factor. -/
def headTermStart : List Token → Bool
  | [] => false
  | t :: _ => isTermStart t.type

/-- The continuation starts with `ALT`. -/
def headIsAlt : List Token → Bool
  | [] => false
  | t :: _ => t.type == .ALT

theorem factorLoopR_noPostfix (a : Node) (rest : List Token)
    (h : headIsPostfix rest = false) : factorLoopR a rest = (a, rest) := by
  cases rest with
  | nil => exact factorLoopR_nil a
  | cons t r0 =>
    simp only [headIsPostfix] at h
    refine factorLoopR_stop a t r0 ?_ ?_ <;> intro hty <;> rw [hty] at h <;> cases h

theorem termLoopR_noStart (acc : Node) (rest : List Token)
    (h : headTermStart rest = false) : termLoopR acc rest = .ok (acc, rest) := by
  cases rest with
  | nil => exact termLoopR_nil acc
  | cons t r0 =>
    simp only [headTermStart] at h
    exact termLoopR_stop acc t r0 h

theorem regexLoopR_noAlt (acc : Node) (rest : List Token)
    (h : headIsAlt rest = false) : regexLoopR acc rest = .ok (acc, rest) := by
  cases rest with
  | nil => exact regexLoopR_nil acc
  | cons t r0 =>
    simp only [headIsAlt] at h
    refine regexLoopR_stop acc t r0 ?_
    intro hty
    rw [hty] at h
    cases h

theorem isLeafType_facts {ty : TokType} (h : isLeafType ty = true) :
    isTermStart ty = true ∧ isPostfixTok ty = false := by
  cases ty <;> simp_all [isLeafType, isTermStart, isPostfixTok]

/-- A well-formed tree serializes to a token stream whose first token can
start a term and is not a postfix operator. -/
theorem toks_head : ∀ n : Node, wfR n = true →
    ∃ t r0, toks n = t :: r0 ∧ isTermStart t.type = true ∧ isPostfixTok t.type = false := by
  intro n
  induction n with
  | tok t =>
    intro h
    rw [wfR_tok, wfT_tok, wfF_tok] at h
    simp only [Bool.and_eq_true] at h
    obtain ⟨h1, h2⟩ := isLeafType_facts h.1
    exact ⟨t, [], rfl, h1, h2⟩
  | star x ihx =>
    intro h
    exact ⟨⟨.LPAREN, "("⟩, _, rfl, by decide, by decide⟩
  | concat l r ihl ihr =>
    intro h
    rw [wfR_concat, wfT_concat] at h
    simp only [Bool.and_eq_true] at h
    obtain ⟨t, r0, heq, h1, h2⟩ := ihl (wfR_of_wfT h.1)
    refine ⟨t, r0 ++ toks r, ?_, h1, h2⟩
    simp [toks, heq]
  | alt l r ihl ihr =>
    intro h
    exact ⟨⟨.LPAREN, "("⟩, _, rfl, by decide, by decide⟩
  | quant x q ihx =>
    intro h
    rw [wfR_quant, wfT_quant, wfF_quant] at h
    simp only [Bool.and_eq_true] at h
    obtain ⟨t, r0, heq, h1, h2⟩ := ihx (wfR_of_wfT (wfT_of_wfF h.1.1))
    refine ⟨t, r0 ++ [q], ?_, h1, h2⟩
    simp [toks, heq]
  | group x ihx =>
    intro h
    exact ⟨⟨.LPAREN, "("⟩, _, rfl, by decide, by decide⟩

theorem wfF_not_concat {n : Node} (h : wfF n = true) : ∀ l r, n ≠ .concat l r := by
  intro l r heq
  subst heq
  rw [wfF_concat] at h
  cases h

/-- For a non-concatenation regex-shaped node, `wfR` collapses to `wfF`. -/
theorem wfF_of_wfR_notConcat {n : Node} (h : wfR n = true)
    (hnc : ∀ l r, n ≠ .concat l r) (hna : ∀ l r, n ≠ .alt l r) : wfF n = true := by
  cases n with
  | tok t => rw [wfR_tok, wfT_tok] at h; exact h
  | star x => rw [wfR_star, wfT_star] at h; exact h
  | quant x q => rw [wfR_quant, wfT_quant] at h; exact h
  | group x => rw [wfR_group, wfT_group] at h; exact h
  | concat l r => exact absurd rfl (hnc l r)
  | alt l r => exact absurd rfl (hna l r)

/-- Deduce the term-level reparse law from the factor-level one. -/
theorem termR_of_factorR {n : Node}
    (hP1 : ∀ rest, ∃ u, factorR (toks n ++ rest) = .ok (factorLoopR u rest)) :
    ∀ rest, headIsPostfix rest = false → ∃ u, termR (toks n ++ rest) = termLoopR u rest := by
  intro rest hpf
  obtain ⟨u, hu⟩ := hP1 rest
  refine ⟨u, ?_⟩
  rw [termR_eq, hu, factorLoopR_noPostfix u rest hpf]

/-- Reparse law: the serialization of a well-formed tree is consumed as a
single factor (for non-concatenation shapes) resp. as a full term, leaving
exactly the continuation. -/
theorem reparse : ∀ n : Node,
    ((wfR n = true ∧ ∀ l r, n ≠ .concat l r) →
      ∀ rest, ∃ u, factorR (toks n ++ rest) = .ok (factorLoopR u rest)) ∧
    (wfR n = true → ∀ rest, headIsPostfix rest = false →
      ∃ u, termR (toks n ++ rest) = termLoopR u rest) := by
  intro n
  induction n with
  | tok t =>
    have hP1 : (wfR (.tok t) = true ∧ ∀ l r, Node.tok t ≠ .concat l r) →
        ∀ rest, ∃ u, factorR (toks (.tok t) ++ rest) = .ok (factorLoopR u rest) := by
      rintro ⟨h, -⟩ rest
      rw [wfR_tok, wfT_tok, wfF_tok] at h
      simp only [Bool.and_eq_true] at h
      refine ⟨.tok t, ?_⟩
      rw [show toks (.tok t) ++ rest = t :: rest from rfl]
      rw [factorR_eq, atomR_leaf t rest h.1]
    exact ⟨hP1, fun h rest hpf =>
      termR_of_factorR (hP1 ⟨h, fun l r h' => Node.noConfusion h'⟩) rest hpf⟩
  | star x ihx =>
    have hP1 : (wfR (.star x) = true ∧ ∀ l r, Node.star x ≠ .concat l r) →
        ∀ rest, ∃ u, factorR (toks (.star x) ++ rest) = .ok (factorLoopR u rest) := by
      rintro ⟨h, -⟩ rest
      have hx : wfR x = true := by
        rw [wfR_star, wfT_star, wfF_star] at h
        exact wfR_of_wfT (wfT_of_wfF h)
      obtain ⟨u₁, hu₁⟩ := ihx.2 hx (⟨.RPAREN, ")"⟩ :: ⟨.STAR, "*"⟩ :: rest) rfl
      have e1 : termR (toks x ++ (⟨.RPAREN, ")"⟩ :: ⟨.STAR, "*"⟩ :: rest)) =
          .ok (u₁, ⟨.RPAREN, ")"⟩ :: ⟨.STAR, "*"⟩ :: rest) := by
        rw [hu₁]
        exact termLoopR_noStart _ _ rfl
      have hreg : regexR (toks x ++ (⟨.RPAREN, ")"⟩ :: ⟨.STAR, "*"⟩ :: rest)) =
          .ok (u₁, ⟨.RPAREN, ")"⟩ :: ⟨.STAR, "*"⟩ :: rest) := by
        rw [regexR_eq, e1]
        exact regexLoopR_noAlt _ _ rfl
      refine ⟨.star (.group u₁), ?_⟩
      rw [show toks (.star x) ++ rest =
        ⟨.LPAREN, "("⟩ :: (toks x ++ (⟨.RPAREN, ")"⟩ :: ⟨.STAR, "*"⟩ :: rest)) from by
        simp [toks]]
      rw [factorR_eq, atomR_lparen _ _ rfl, hreg]
      rw [show (factorLoopR (.star (.group u₁)) rest) = factorLoopR (.group u₁) (⟨.STAR, "*"⟩ :: rest) from
        (factorLoopR_star (.group u₁) ⟨.STAR, "*"⟩ rest rfl).symm]
      rfl
    exact ⟨hP1, fun h rest hpf =>
      termR_of_factorR (hP1 ⟨h, fun l r h' => Node.noConfusion h'⟩) rest hpf⟩
  | concat l r ihl ihr =>
    refine ⟨?_, ?_⟩
    · rintro ⟨-, hnc⟩
      exact absurd rfl (hnc l r)
    · intro h rest hpf
      rw [wfR_concat, wfT_concat] at h
      simp only [Bool.and_eq_true] at h
      obtain ⟨hl, hr⟩ := h
      obtain ⟨t0, r0, hr0, hts, hpf0⟩ := toks_head r (wfR_of_wfT (wfT_of_wfF hr))
      obtain ⟨u₁, hu₁⟩ := ihl.2 (wfR_of_wfT hl) (toks r ++ rest) (by
        rw [hr0]
        simpa [headIsPostfix] using hpf0)
      obtain ⟨u₂, hu₂⟩ := ihr.1 ⟨wfR_of_wfT (wfT_of_wfF hr), wfF_not_concat hr⟩ rest
      rw [hr0] at hu₂
      simp only [List.cons_append] at hu₂
      refine ⟨.concat u₁ u₂, ?_⟩
      rw [show toks (.concat l r) ++ rest = toks l ++ (toks r ++ rest) from by simp [toks]]
      rw [hu₁, hr0]
      simp only [List.cons_append]
      rw [termLoopR_cons u₁ t0 (r0 ++ rest) hts, hu₂, factorLoopR_noPostfix u₂ rest hpf]
  | alt l r ihl ihr =>
    have hP1 : (wfR (.alt l r) = true ∧ ∀ l2 r2, Node.alt l r ≠ .concat l2 r2) →
        ∀ rest, ∃ u, factorR (toks (.alt l r) ++ rest) = .ok (factorLoopR u rest) := by
      rintro ⟨h, -⟩ rest
      rw [wfR_alt] at h
      simp only [Bool.and_eq_true] at h
      obtain ⟨hl, hr⟩ := h
      obtain ⟨u₁, hu₁⟩ := ihl.2 hl (⟨.ALT, "|"⟩ :: (toks r ++ ⟨.RPAREN, ")"⟩ :: rest)) rfl
      obtain ⟨u₂, hu₂⟩ := ihr.2 (wfR_of_wfT hr) (⟨.RPAREN, ")"⟩ :: rest) rfl
      have e1 : termR (toks l ++ (⟨.ALT, "|"⟩ :: (toks r ++ ⟨.RPAREN, ")"⟩ :: rest))) =
          .ok (u₁, ⟨.ALT, "|"⟩ :: (toks r ++ ⟨.RPAREN, ")"⟩ :: rest)) := by
        rw [hu₁]
        exact termLoopR_noStart _ _ rfl
      have e3 : termR (toks r ++ (⟨.RPAREN, ")"⟩ :: rest)) =
          .ok (u₂, ⟨.RPAREN, ")"⟩ :: rest) := by
        rw [hu₂]
        exact termLoopR_noStart _ _ rfl
      have e4 : regexLoopR u₁ (⟨.ALT, "|"⟩ :: (toks r ++ ⟨.RPAREN, ")"⟩ :: rest)) =
          .ok (.alt u₁ u₂, ⟨.RPAREN, ")"⟩ :: rest) := by
        rw [regexLoopR_cons _ _ _ rfl, e3]
        exact regexLoopR_noAlt _ _ rfl
      have hreg : regexR (toks l ++ (⟨.ALT, "|"⟩ :: (toks r ++ ⟨.RPAREN, ")"⟩ :: rest))) =
          .ok (.alt u₁ u₂, ⟨.RPAREN, ")"⟩ :: rest) := by
        rw [regexR_eq, e1]
        exact e4
      refine ⟨.group (.alt u₁ u₂), ?_⟩
      rw [show toks (.alt l r) ++ rest =
        ⟨.LPAREN, "("⟩ :: (toks l ++ (⟨.ALT, "|"⟩ :: (toks r ++ ⟨.RPAREN, ")"⟩ :: rest))) from by
        simp [toks]]
      rw [factorR_eq, atomR_lparen _ _ rfl, hreg]
      rfl
    exact ⟨hP1, fun h rest hpf =>
      termR_of_factorR (hP1 ⟨h, fun l2 r2 h' => Node.noConfusion h'⟩) rest hpf⟩
  | quant x q ihx =>
    have hP1 : (wfR (.quant x q) = true ∧ ∀ l r, Node.quant x q ≠ .concat l r) →
        ∀ rest, ∃ u, factorR (toks (.quant x q) ++ rest) = .ok (factorLoopR u rest) := by
      rintro ⟨h, -⟩ rest
      have h' : wfF (.quant x q) = true := by rw [wfR_quant, wfT_quant] at h; exact h
      rw [wfF_quant] at h'
      simp only [Bool.and_eq_true, beq_iff_eq] at h'
      obtain ⟨⟨hx, hqt⟩, hqok⟩ := h'
      obtain ⟨u₁, hu₁⟩ := ihx.1 ⟨wfR_of_wfT (wfT_of_wfF hx), wfF_not_concat hx⟩ (q :: rest)
      refine ⟨.quant u₁ q, ?_⟩
      rw [show toks (.quant x q) ++ rest = toks x ++ (q :: rest) from by simp [toks]]
      rw [hu₁, factorLoopR_quant u₁ q rest hqt]
    exact ⟨hP1, fun h rest hpf =>
      termR_of_factorR (hP1 ⟨h, fun l r h' => Node.noConfusion h'⟩) rest hpf⟩
  | group x ihx =>
    have hP1 : (wfR (.group x) = true ∧ ∀ l r, Node.group x ≠ .concat l r) →
        ∀ rest, ∃ u, factorR (toks (.group x) ++ rest) = .ok (factorLoopR u rest) := by
      rintro ⟨h, -⟩ rest
      have hx : wfR x = true := by rw [wfR_group, wfT_group, wfF_group] at h; exact h
      obtain ⟨u₁, hu₁⟩ := ihx.2 hx (⟨.RPAREN, ")"⟩ :: rest) rfl
      have e1 : termR (toks x ++ (⟨.RPAREN, ")"⟩ :: rest)) =
          .ok (u₁, ⟨.RPAREN, ")"⟩ :: rest) := by
        rw [hu₁]
        exact termLoopR_noStart _ _ rfl
      have hreg : regexR (toks x ++ (⟨.RPAREN, ")"⟩ :: rest)) =
          .ok (u₁, ⟨.RPAREN, ")"⟩ :: rest) := by
        rw [regexR_eq, e1]
        exact regexLoopR_noAlt _ _ rfl
      refine ⟨.group u₁, ?_⟩
      rw [show toks (.group x) ++ rest =
        ⟨.LPAREN, "("⟩ :: (toks x ++ (⟨.RPAREN, ")"⟩ :: rest)) from by simp [toks]]
      rw [factorR_eq, atomR_lparen _ _ rfl, hreg]
      rfl
    exact ⟨hP1, fun h rest hpf =>
      termR_of_factorR (hP1 ⟨h, fun l r h' => Node.noConfusion h'⟩) rest hpf⟩

/-- The serialization of a well-formed tree parses successfully. -/
theorem parse_toks {n : Node} (h : wfR n = true) : ∃ u, parse (toks n) = .ok u := by
  obtain ⟨u, hu⟩ := (reparse n).2 h [] rfl
  simp only [List.append_nil] at hu
  have h1 : regexR (toks n) = .ok (u, []) := by
    rw [regexR_eq, hu, termLoopR_nil]
    exact regexLoopR_nil u
  refine ⟨u, ?_⟩
  rw [parse_eq, h1]

/-- The serialization of a well-formed tree retokenizes to `toks n`. -/
theorem tokenize_compile {n : Node} {s : String} (hl : leavesOK n = true)
    (hc : compile n = .ok s) : tokenize s = .ok (toks n) := by
  obtain ⟨s2, hcs, hts⟩ := compile_tokChars n hl
  rw [hc] at hcs
  have hss : s = s2 := by
    have := hcs
    simp only [Except.ok.injEq] at this
    exact this
  subst hss
  have h0 := hts []
  rw [List.append_nil] at h0
  rw [tokenize, h0, tokChars_nil]
  simp [Except.map]

/-- The tokens stored at the leaves of a tree (including via `atom`'s
direct token returns); the serializer's per-kind leaf cases run exactly on
these. -/
def leafToks : Node → List Token
  | .tok t => [t]
  | .star x => leafToks x
  | .concat l r => leafToks l ++ leafToks r
  | .alt l r => leafToks l ++ leafToks r
  | .quant x _ => leafToks x
  | .group x => leafToks x

theorem leafToks_tokOK : ∀ n : Node, leavesOK n = true →
    ∀ t ∈ leafToks n, tokOK t = true := by
  intro n
  induction n with
  | tok t =>
    intro h u hu
    simp only [leavesOK, Bool.and_eq_true] at h
    simp only [leafToks, List.mem_singleton] at hu
    subst hu
    exact h.2
  | star x ihx =>
    intro h u hu
    simp only [leavesOK] at h
    exact ihx h u hu
  | concat l r ihl ihr =>
    intro h u hu
    simp only [leavesOK, Bool.and_eq_true] at h
    simp only [leafToks, List.mem_append] at hu
    rcases hu with hu | hu
    · exact ihl h.1 u hu
    · exact ihr h.2 u hu
  | alt l r ihl ihr =>
    intro h u hu
    simp only [leavesOK, Bool.and_eq_true] at h
    simp only [leafToks, List.mem_append] at hu
    rcases hu with hu | hu
    · exact ihl h.1 u hu
    · exact ihr h.2 u hu
  | quant x q ihx =>
    intro h u hu
    simp only [leavesOK, Bool.and_eq_true] at h
    exact ihx h.1.1 u hu
  | group x ihx =>
    intro h u hu
    simp only [leavesOK] at h
    exact ihx h u hu

theorem tokOK_empty_class {t : Token} (h : tokOK t = true) (hv : t.value = "") :
    t.type = .CLASS := by
  have hd : t.value.data = [] := by rw [hv]
  cases htt : t.type with
  | CLASS => rfl
  | CHAR =>
    obtain ⟨c, _, hc⟩ := tokOK_char_inv htt h
    rw [hd] at hc
    cases hc
  | ESCAPED_CHAR =>
    obtain ⟨c, hc⟩ := tokOK_escaped_inv htt h
    rw [hd] at hc
    cases hc
  | DOT => exact absurd htt (tokOK_not_dot h)
  | QUANT =>
    obtain ⟨i, _, hc⟩ := tokOK_quant_inv htt h
    rw [hd] at hc
    cases hc
  | START =>
    have hc := tokOK_start_inv htt h
    rw [hd] at hc
    cases hc
  | END =>
    have hc := tokOK_end_inv htt h
    rw [hd] at hc
    cases hc
  | STAR =>
    unfold tokOK at h
    rw [htt, hd] at h
    simp at h
  | ALT =>
    unfold tokOK at h
    rw [htt, hd] at h
    simp at h
  | LPAREN =>
    unfold tokOK at h
    rw [htt, hd] at h
    simp at h
  | RPAREN =>
    unfold tokOK at h
    rw [htt, hd] at h
    simp at h

/-! ### Claims -/

/-- Claim C1: for every pattern string on which `tokenize` and `parse`
both succeed, serializing the resulting AST with `compile` yields a string
that `tokenize` and `parse` again accept without error (syntactic closure
of the pipeline's output). -/
theorem round_trip_serialization (p : String) (ts : List Token) (n : Node)
    (h1 : tokenize p = .ok ts) (h2 : parse ts = .ok n) :
    ∃ (s : String) (ts2 : List Token) (n2 : Node),
      compile n = .ok s ∧ tokenize s = .ok ts2 ∧ parse ts2 = .ok n2 := by
  have hOK := (tokChars_inv p.data ts h1).1
  have hwf : wfR n = true := parse_wf hOK h2
  have hleaves := (leavesOK_of_wf n).2.2 hwf
  obtain ⟨s, hcs, -⟩ := compile_tokChars n hleaves
  obtain ⟨u, hu⟩ := parse_toks hwf
  exact ⟨s, toks n, u, hcs, tokenize_compile hleaves hcs, hu⟩

/-- Witness for C1 at the concrete pattern `"a|b"`. -/
theorem round_trip_serialization_witness :
    ∃ (s : String) (ts2 : List Token) (n2 : Node),
      compile (.alt (.tok ⟨.CHAR, "a"⟩) (.tok ⟨.CHAR, "b"⟩)) = .ok s ∧
      tokenize s = .ok ts2 ∧ parse ts2 = .ok n2 :=
  round_trip_serialization "a|b" [⟨.CHAR, "a"⟩, ⟨.ALT, "|"⟩, ⟨.CHAR, "b"⟩]
    (.alt (.tok ⟨.CHAR, "a"⟩) (.tok ⟨.CHAR, "b"⟩))
    (by simp +decide [tokenize, tokChars, Except.map])
    (by simp +decide [parse_eq, regexR_eq, termR_eq, factorR_eq, atomR_nil, atomR_leaf,
      atomR_lparen, atomR_bad, factorLoopR_nil, factorLoopR_star, factorLoopR_quant,
      factorLoopR_stop, termLoopR_nil, termLoopR_stop, termLoopR_cons, regexLoopR_nil,
      regexLoopR_stop, regexLoopR_cons])

/-- Claim C2 (code-bug evidence): at end of input where another token is
required the parser does not fail with an `UnexpectedEndOfInput` syntax
error; `Parser.atom` reads `self.current_token.type` while
`current_token` is `None`, so the run dies with a Python
`AttributeError` (modelled as `ParseError.noneTypeError`), both on the
empty token list and on the tokens of `"a|"`. -/
theorem parser_end_of_input_attribute_error :
    tokenize "a|" = .ok [⟨.CHAR, "a"⟩, ⟨.ALT, "|"⟩] ∧
    parse [⟨.CHAR, "a"⟩, ⟨.ALT, "|"⟩] = .error .noneTypeError ∧
    parse ([] : List Token) = .error .noneTypeError := by
  refine ⟨by simp +decide [tokenize, tokChars, Except.map], ?_, ?_⟩
  · simp +decide [parse_eq, regexR_eq, termR_eq, factorR_eq, atomR_nil, atomR_leaf,
      atomR_lparen, atomR_bad, factorLoopR_nil, factorLoopR_star, factorLoopR_quant,
      factorLoopR_stop, termLoopR_nil, termLoopR_stop, termLoopR_cons, regexLoopR_nil,
      regexLoopR_stop, regexLoopR_cons]
  · simp +decide [parse_eq, regexR_eq, termR_eq, factorR_eq, atomR_nil, atomR_leaf,
      atomR_lparen, atomR_bad, factorLoopR_nil, factorLoopR_star, factorLoopR_quant,
      factorLoopR_stop, termLoopR_nil, termLoopR_stop, termLoopR_cons, regexLoopR_nil,
      regexLoopR_stop, regexLoopR_cons]

/-- Claim C3 (counterexample): `"[]"` tokenizes successfully to a single
`CLASS` token whose text is empty, refuting "every token's `text` is
non-empty". -/
theorem token_text_nonempty_counterexample :
    tokenize "[]" = .ok [⟨.CLASS, ""⟩] ∧
    ¬ (∀ (s : String) (ts : List Token), tokenize s = .ok ts → ∀ t ∈ ts, t.value ≠ "") := by
  have h : tokenize "[]" = .ok [⟨.CLASS, ""⟩] := by
    simp +decide [tokenize, tokChars, Except.map]
  exact ⟨h, fun hall => hall "[]" [⟨.CLASS, ""⟩] h ⟨.CLASS, ""⟩ (by simp) rfl⟩

/-- Claim C3 (amended): on every successful `tokenize` run, a token with
empty text can only be a `CLASS` token (from an empty class `[]`); the
token lexemes concatenate back to the exact input, with `CLASS` text the
exact characters between its brackets (brackets excluded, hence free of
`]`) and `QUANT` text the exact brace-delimited characters (braces
included, interior free of `}`). -/
theorem token_text_invariant_amended (s : String) (ts : List Token)
    (h : tokenize s = .ok ts) :
    (∀ t ∈ ts, t.value = "" → t.type = .CLASS) ∧
    s.data = lexcat ts ∧
    (∀ t ∈ ts, t.type = .CLASS → ∀ a ∈ t.value.data, a ≠ ']') ∧
    (∀ t ∈ ts, t.type = .QUANT →
      ∃ inner, (∀ a ∈ inner, a ≠ '}') ∧ t.value.data = '{' :: (inner ++ ['}'])) := by
  obtain ⟨hOK, hLex⟩ := tokChars_inv s.data ts h
  refine ⟨?_, hLex, ?_, ?_⟩
  · intro t ht hv
    exact tokOK_empty_class (hOK t ht) hv
  · intro t ht htt a ha
    have := tokOK_class_inv htt (hOK t ht) a ha
    simpa using this
  · intro t ht htt
    obtain ⟨inner, hmem, hdata⟩ := tokOK_quant_inv htt (hOK t ht)
    exact ⟨inner, fun a ha => by simpa using hmem a ha, hdata⟩

/-- Witness for amended C3 at the concrete pattern `"x[]{2}"`. -/
theorem token_text_invariant_amended_witness :
    (∀ t ∈ [(⟨.CHAR, "x"⟩ : Token), ⟨.CLASS, ""⟩, ⟨.QUANT, "{2}"⟩],
      t.value = "" → t.type = .CLASS) ∧
    ("x[]{2}" : String).data = lexcat [⟨.CHAR, "x"⟩, ⟨.CLASS, ""⟩, ⟨.QUANT, "{2}"⟩] ∧
    (∀ t ∈ [(⟨.CHAR, "x"⟩ : Token), ⟨.CLASS, ""⟩, ⟨.QUANT, "{2}"⟩],
      t.type = .CLASS → ∀ a ∈ t.value.data, a ≠ ']') ∧
    (∀ t ∈ [(⟨.CHAR, "x"⟩ : Token), ⟨.CLASS, ""⟩, ⟨.QUANT, "{2}"⟩],
      t.type = .QUANT →
      ∃ inner, (∀ a ∈ inner, a ≠ '}') ∧ t.value.data = '{' :: (inner ++ ['}'])) :=
  token_text_invariant_amended "x[]{2}" [⟨.CHAR, "x"⟩, ⟨.CLASS, ""⟩, ⟨.QUANT, "{2}"⟩]
    (by simp +decide [tokenize, tokChars, Except.map])

/-- Claim C4: `tokenize` maps `'.'` to a `CHAR` token and never emits a
`DOT` token, so neither the tokenizer's `DOT` branch nor the serializer's
`DOT` case is reachable from tokenizer output: no token of a successful
run, and no leaf token of a parse of that run, has type `DOT`. -/
theorem tokenizer_never_emits_dot (s : String) (ts : List Token)
    (h : tokenize s = .ok ts) :
    (∀ t ∈ ts, t.type ≠ .DOT) ∧
    (∀ n : Node, parse ts = .ok n → ∀ t ∈ leafToks n, t.type ≠ .DOT) := by
  have hOK := (tokChars_inv s.data ts h).1
  refine ⟨fun t ht => tokOK_not_dot (hOK t ht), ?_⟩
  intro n hn t ht
  have hwf := parse_wf hOK hn
  have hl := (leavesOK_of_wf n).2.2 hwf
  exact tokOK_not_dot (leafToks_tokOK n hl t ht)

/-- Witness for C4 at the concrete pattern `"a.b"` (the dot becomes a
`CHAR` token). -/
theorem tokenizer_never_emits_dot_witness :
    (∀ t ∈ [(⟨.CHAR, "a"⟩ : Token), ⟨.CHAR, "."⟩, ⟨.CHAR, "b"⟩], t.type ≠ .DOT) ∧
    (∀ n : Node, parse [(⟨.CHAR, "a"⟩ : Token), ⟨.CHAR, "."⟩, ⟨.CHAR, "b"⟩] = .ok n →
      ∀ t ∈ leafToks n, t.type ≠ .DOT) :=
  tokenizer_never_emits_dot "a.b" [⟨.CHAR, "a"⟩, ⟨.CHAR, "."⟩, ⟨.CHAR, "b"⟩]
    (by simp +decide [tokenize, tokChars, Except.map])

/-- Claim C5: on every AST obtained by parsing a tokenizer run, `compile`
succeeds — it never reaches its `Unknown node type` branch (nor the
attribute crashes on foreign leaves). -/
theorem serializer_total_on_parser_output (p : String) (ts : List Token) (n : Node)
    (h1 : tokenize p = .ok ts) (h2 : parse ts = .ok n) :
    ∃ s : String, compile n = .ok s := by
  have hOK := (tokChars_inv p.data ts h1).1
  have hwf := parse_wf hOK h2
  obtain ⟨s, hcs, -⟩ := compile_tokChars n ((leavesOK_of_wf n).2.2 hwf)
  exact ⟨s, hcs⟩

/-- Witness for C5 at the concrete pattern `"a"`. -/
theorem serializer_total_on_parser_output_witness :
    ∃ s : String, compile (.tok ⟨.CHAR, "a"⟩) = .ok s :=
  serializer_total_on_parser_output "a" [⟨.CHAR, "a"⟩] (.tok ⟨.CHAR, "a"⟩)
    (by simp +decide [tokenize, tokChars, Except.map])
    (by simp +decide [parse_eq, regexR_eq, termR_eq, factorR_eq, atomR_nil, atomR_leaf,
      atomR_lparen, atomR_bad, factorLoopR_nil, factorLoopR_star, factorLoopR_quant,
      factorLoopR_stop, termLoopR_nil, termLoopR_stop, termLoopR_cons, regexLoopR_nil,
      regexLoopR_stop, regexLoopR_cons])

/-- Claim C6: the spec's error table on its four examples: `"a["` fails
lexing with the unterminated-class error, `"a\\"` with the
unterminated-escape error, parsing the tokens of `"(a"` fails with the
unclosed-group error, and parsing the tokens of `"*a"` fails with an
unexpected-token error on the `STAR` token. -/
theorem error_table_examples :
    tokenize "a[" = .error .unterminatedClass ∧
    tokenize "a\\" = .error .unterminatedEscape ∧
    (tokenize "(a" = .ok [⟨.LPAREN, "("⟩, ⟨.CHAR, "a"⟩] ∧
      parse [⟨.LPAREN, "("⟩, ⟨.CHAR, "a"⟩] = .error .unclosedGroup) ∧
    (tokenize "*a" = .ok [⟨.STAR, "*"⟩, ⟨.CHAR, "a"⟩] ∧
      parse [⟨.STAR, "*"⟩, ⟨.CHAR, "a"⟩] = .error (.unexpectedToken ⟨.STAR, "*"⟩)) := by
  refine ⟨by simp +decide [tokenize, tokChars, Except.map],
    by simp +decide [tokenize, tokChars, Except.map],
    ⟨by simp +decide [tokenize, tokChars, Except.map], ?_⟩,
    ⟨by simp +decide [tokenize, tokChars, Except.map], ?_⟩⟩
  · simp +decide [parse_eq, regexR_eq, termR_eq, factorR_eq, atomR_nil, atomR_leaf,
      atomR_lparen, atomR_bad, factorLoopR_nil, factorLoopR_star, factorLoopR_quant,
      factorLoopR_stop, termLoopR_nil, termLoopR_stop, termLoopR_cons, regexLoopR_nil,
      regexLoopR_stop, regexLoopR_cons]
  · simp +decide [parse_eq, regexR_eq, termR_eq, factorR_eq, atomR_nil, atomR_leaf,
      atomR_lparen, atomR_bad, factorLoopR_nil, factorLoopR_star, factorLoopR_quant,
      factorLoopR_stop, termLoopR_nil, termLoopR_stop, termLoopR_cons, regexLoopR_nil,
      regexLoopR_stop, regexLoopR_cons]

/-- Claim C7: `"a{2,3}"` parses to `QUANT(CHAR(a), "{2,3}")` and
serializes back to `"a{2,3}"` verbatim; in general the raw brace text of a
`QUANT` token is stored in the node unchanged by the factor loop and
appended verbatim and unparenthesized by `compile`, with no numeric
interpretation anywhere. -/
theorem quantifier_passthrough :
    tokenize "a{2,3}" = .ok [⟨.CHAR, "a"⟩, ⟨.QUANT, "{2,3}"⟩] ∧
    parse [⟨.CHAR, "a"⟩, ⟨.QUANT, "{2,3}"⟩] =
      .ok (.quant (.tok ⟨.CHAR, "a"⟩) ⟨.QUANT, "{2,3}"⟩) ∧
    compile (.quant (.tok ⟨.CHAR, "a"⟩) ⟨.QUANT, "{2,3}"⟩) = .ok "a{2,3}" ∧
    (∀ (x : Node) (q : Token), compile (.quant x q) = (compile x).map (fun s => s ++ q.value)) ∧
    (∀ (a : Node) (v : String) (rest : List Token),
      factorLoopR a (⟨.QUANT, v⟩ :: rest) = factorLoopR (.quant a ⟨.QUANT, v⟩) rest) := by
  refine ⟨by simp +decide [tokenize, tokChars, Except.map], ?_, rfl,
    fun x q => rfl, fun a v rest => factorLoopR_quant a ⟨.QUANT, v⟩ rest rfl⟩
  simp +decide [parse_eq, regexR_eq, termR_eq, factorR_eq, atomR_nil, atomR_leaf,
    atomR_lparen, atomR_bad, factorLoopR_nil, factorLoopR_star, factorLoopR_quant,
    factorLoopR_stop, termLoopR_nil, termLoopR_stop, termLoopR_cons, regexLoopR_nil,
    regexLoopR_stop, regexLoopR_cons]

/-- Claim C8: postfix operators nest left-associatively around the atom:
`"a**"` parses to `STAR(STAR(a))` and `"a{2}{3}"` to
`QUANT(QUANT(a, {2}), {3})`; each loop step wraps the accumulated
result. -/
theorem postfix_left_nesting :
    tokenize "a**" = .ok [⟨.CHAR, "a"⟩, ⟨.STAR, "*"⟩, ⟨.STAR, "*"⟩] ∧
    parse [⟨.CHAR, "a"⟩, ⟨.STAR, "*"⟩, ⟨.STAR, "*"⟩] =
      .ok (.star (.star (.tok ⟨.CHAR, "a"⟩))) ∧
    tokenize "a{2}{3}" = .ok [⟨.CHAR, "a"⟩, ⟨.QUANT, "{2}"⟩, ⟨.QUANT, "{3}"⟩] ∧
    parse [⟨.CHAR, "a"⟩, ⟨.QUANT, "{2}"⟩, ⟨.QUANT, "{3}"⟩] =
      .ok (.quant (.quant (.tok ⟨.CHAR, "a"⟩) ⟨.QUANT, "{2}"⟩) ⟨.QUANT, "{3}"⟩) ∧
    (∀ (a : Node) (rest : List Token),
      factorLoopR a (⟨.STAR, "*"⟩ :: rest) = factorLoopR (.star a) rest) := by
  refine ⟨by simp +decide [tokenize, tokChars, Except.map], ?_,
    by simp +decide [tokenize, tokChars, Except.map], ?_,
    fun a rest => factorLoopR_star a ⟨.STAR, "*"⟩ rest rfl⟩
  · simp +decide [parse_eq, regexR_eq, termR_eq, factorR_eq, atomR_nil, atomR_leaf,
      atomR_lparen, atomR_bad, factorLoopR_nil, factorLoopR_star, factorLoopR_quant,
      factorLoopR_stop, termLoopR_nil, termLoopR_stop, termLoopR_cons, regexLoopR_nil,
      regexLoopR_stop, regexLoopR_cons]
  · simp +decide [parse_eq, regexR_eq, termR_eq, factorR_eq, atomR_nil, atomR_leaf,
      atomR_lparen, atomR_bad, factorLoopR_nil, factorLoopR_star, factorLoopR_quant,
      factorLoopR_stop, termLoopR_nil, termLoopR_stop, termLoopR_cons, regexLoopR_nil,
      regexLoopR_stop, regexLoopR_cons]

/-- Claim C9: the serializer always parenthesizes star and alternation,
even around a single character: `"a|b"` reparses-serializes to `"(a|b)"`
and `"a*"` to `"(a)*"`; in general `compile` wraps every `ALT` and every
`STAR` operand in parentheses. -/
theorem star_alt_always_parenthesized :
    tokenize "a|b" = .ok [⟨.CHAR, "a"⟩, ⟨.ALT, "|"⟩, ⟨.CHAR, "b"⟩] ∧
    parse [⟨.CHAR, "a"⟩, ⟨.ALT, "|"⟩, ⟨.CHAR, "b"⟩] =
      .ok (.alt (.tok ⟨.CHAR, "a"⟩) (.tok ⟨.CHAR, "b"⟩)) ∧
    compile (.alt (.tok ⟨.CHAR, "a"⟩) (.tok ⟨.CHAR, "b"⟩)) = .ok "(a|b)" ∧
    tokenize "a*" = .ok [⟨.CHAR, "a"⟩, ⟨.STAR, "*"⟩] ∧
    parse [⟨.CHAR, "a"⟩, ⟨.STAR, "*"⟩] = .ok (.star (.tok ⟨.CHAR, "a"⟩)) ∧
    compile (.star (.tok ⟨.CHAR, "a"⟩)) = .ok "(a)*" ∧
    (∀ x : Node, compile (.star x) = (compile x).map (fun s => "(" ++ s ++ ")*")) := by
  refine ⟨by simp +decide [tokenize, tokChars, Except.map], ?_, rfl,
    by simp +decide [tokenize, tokChars, Except.map], ?_, rfl, fun x => rfl⟩
  · simp +decide [parse_eq, regexR_eq, termR_eq, factorR_eq, atomR_nil, atomR_leaf,
      atomR_lparen, atomR_bad, factorLoopR_nil, factorLoopR_star, factorLoopR_quant,
      factorLoopR_stop, termLoopR_nil, termLoopR_stop, termLoopR_cons, regexLoopR_nil,
      regexLoopR_stop, regexLoopR_cons]
  · simp +decide [parse_eq, regexR_eq, termR_eq, factorR_eq, atomR_nil, atomR_leaf,
      atomR_lparen, atomR_bad, factorLoopR_nil, factorLoopR_star, factorLoopR_quant,
      factorLoopR_stop, termLoopR_nil, termLoopR_stop, termLoopR_cons, regexLoopR_nil,
      regexLoopR_stop, regexLoopR_cons]

/-- Claim C10: `parse` does not require the whole token list to be
consumed: on the tokens of `"a)"` and `"a)b"` it succeeds with `CHAR(a)`
and silently discards the trailing tokens. -/
theorem parse_ignores_trailing_tokens :
    tokenize "a)" = .ok [⟨.CHAR, "a"⟩, ⟨.RPAREN, ")"⟩] ∧
    parse [⟨.CHAR, "a"⟩, ⟨.RPAREN, ")"⟩] = .ok (.tok ⟨.CHAR, "a"⟩) ∧
    tokenize "a)b" = .ok [⟨.CHAR, "a"⟩, ⟨.RPAREN, ")"⟩, ⟨.CHAR, "b"⟩] ∧
    parse [⟨.CHAR, "a"⟩, ⟨.RPAREN, ")"⟩, ⟨.CHAR, "b"⟩] = .ok (.tok ⟨.CHAR, "a"⟩) := by
  refine ⟨by simp +decide [tokenize, tokChars, Except.map], ?_,
    by simp +decide [tokenize, tokChars, Except.map], ?_⟩
  · simp +decide [parse_eq, regexR_eq, termR_eq, factorR_eq, atomR_nil, atomR_leaf,
      atomR_lparen, atomR_bad, factorLoopR_nil, factorLoopR_star, factorLoopR_quant,
      factorLoopR_stop, termLoopR_nil, termLoopR_stop, termLoopR_cons, regexLoopR_nil,
      regexLoopR_stop, regexLoopR_cons]
  · simp +decide [parse_eq, regexR_eq, termR_eq, factorR_eq, atomR_nil, atomR_leaf,
      atomR_lparen, atomR_bad, factorLoopR_nil, factorLoopR_star, factorLoopR_quant,
      factorLoopR_stop, termLoopR_nil, termLoopR_stop, termLoopR_cons, regexLoopR_nil,
      regexLoopR_stop, regexLoopR_cons]

end Regex

